import Mathlib

/-!
Verification development for a web-scraper repository.

The development shallowly embeds the Python code of the repository:

* `Urllib` — the parts of Python's `urllib.parse` used by the code
  (`urlsplit`, `urlparse`, `urljoin`), translated from CPython's
  reference implementation;
* `Parser` — `WebsiteParserService.parse`, `clean`, `extract_links`
  (src/app/core/parser/service.py), over an HTML-tree model of
  BeautifulSoup documents;
* `Storage` — `FileSystemStorageService.save` and `_generate_filename`
  (src/app/core/storage/service.py), with a full MD5 implementation;
* `Interactor` — `WebScraperInteractor.run_scraping` and
  `_process_url_pipeline` (src/app/core/interactor.py), with the ports
  (scraper / parser / converter / storage) abstracted as an environment
  of effectful functions, and Python exceptions modelled by `Except`.
-/

namespace WebScraper

namespace Urllib

/-- Characters allowed after the first character of a URL scheme
(CPython `scheme_chars`: letters, digits, and `+ - .`). -/
def isSchemeChar (c : Char) : Bool :=
  c.isAlpha || c.isDigit || c = '+' || c = '-' || c = '.'

/-- Split a character list at the first occurrence of `c`;
returns the part before and, when `c` occurs, the part after it. -/
def breakAtChar (c : Char) : List Char → List Char × Option (List Char)
  | [] => ([], none)
  | x :: xs =>
    if x = c then ([], some xs)
    else
      let r := breakAtChar c xs
      (x :: r.1, r.2)

/-- CPython `urlsplit` scheme detection: the text before the first `:`
is a scheme when it is nonempty, starts with a letter, and all further
characters are scheme characters.  Returns the lowercased scheme and
the remainder. -/
def splitScheme (l : List Char) : Option (List Char × List Char) :=
  match breakAtChar ':' l with
  | (pre, some rest) =>
    match pre with
    | [] => none
    | c0 :: cs =>
      if c0.isAlpha && cs.all isSchemeChar then
        some ((c0 :: cs).map Char.toLower, rest)
      else none
  | (_, none) => none

/-- A character that terminates the network-location part
(CPython `_splitnetloc` delimiters `/?#`). -/
def netlocStop (c : Char) : Bool := c = '/' || c = '?' || c = '#'

/-- Result of `urlsplit`: scheme, netloc, path, query, fragment. -/
structure SplitResult where
  scheme : String
  netloc : String
  path : String
  query : String
  fragment : String
deriving DecidableEq, Repr

/-- CPython `_splitnetloc`: when the remainder starts with `//`, the
netloc runs to the first `/?#`; otherwise there is none. -/
def splitNetloc (rest : List Char) : List Char × List Char :=
  match rest with
  | '/' :: '/' :: r =>
    (r.takeWhile (fun c => !netlocStop c), r.dropWhile (fun c => !netlocStop c))
  | _ => (([] : List Char), rest)

/-- Split off the fragment at the first `#`, if any. -/
def splitFragment (rest : List Char) : List Char × List Char :=
  match breakAtChar '#' rest with
  | (pre, some f) => (pre, f)
  | (pre, none) => (pre, ([] : List Char))

/-- Split off the query at the first `?`, if any. -/
def splitQuery (rest : List Char) : List Char × List Char :=
  match breakAtChar '?' rest with
  | (pre, some q) => (pre, q)
  | (pre, none) => (pre, ([] : List Char))

/-- CPython `urllib.parse.urlsplit` on a character list, with a default
scheme (used by `urljoin`, which parses the relative URL with the base
scheme as default). -/
def urlsplitL (l : List Char) (defScheme : List Char) : SplitResult :=
  let sr :=
    match splitScheme l with
    | some (sch, r) => (sch, r)
    | none => (defScheme, l)
  let nr := splitNetloc sr.2
  let fr := splitFragment nr.2
  let qr := splitQuery fr.1
  ⟨⟨sr.1⟩, ⟨nr.1⟩, ⟨qr.1⟩, ⟨qr.2⟩, ⟨fr.2⟩⟩

/-- `urllib.parse.urlsplit` on strings. -/
def urlsplit (s : String) (defScheme : String) : SplitResult :=
  urlsplitL s.toList defScheme.toList

/-- CPython `uses_params`. -/
def usesParams : List String :=
  ["", "ftp", "hdl", "prospero", "http", "imap", "https", "shttp",
   "rtsp", "rtspu", "sip", "sips", "mms", "sftp", "tel"]

/-- CPython `uses_relative`. -/
def usesRelative : List String :=
  ["", "ftp", "http", "gopher", "nntp", "imap", "wais", "file", "https",
   "shttp", "mms", "prospero", "rtsp", "rtspu", "sftp", "svn", "svn+ssh",
   "ws", "wss"]

/-- CPython `uses_netloc`. -/
def usesNetloc : List String :=
  ["", "ftp", "http", "gopher", "nntp", "telnet", "imap", "wais", "file",
   "mms", "https", "shttp", "snews", "prospero", "rtsp", "rtspu", "rsync",
   "svn", "svn+ssh", "sftp", "nfs", "git", "git+ssh", "ws", "wss"]

/-- CPython `_splitparams`: split `;params` off the last path segment.
When the path contains a `/`, only a `;` at or after the last `/`
counts; otherwise the first `;` anywhere. -/
def splitparams (l : List Char) : List Char × List Char :=
  if l.contains '/' then
    let rev := l.reverse
    let b := (rev.takeWhile (fun c => c ≠ '/')).reverse
    let a := (rev.dropWhile (fun c => c ≠ '/')).reverse
    match breakAtChar ';' b with
    | (pre, some par) => (a ++ pre, par)
    | (_, none) => (l, [])
  else
    match breakAtChar ';' l with
    | (pre, some par) => (pre, par)
    | (_, none) => (l, [])

/-- Result of `urlparse`: `urlsplit` plus the `params` component. -/
structure ParseResult where
  scheme : String
  netloc : String
  path : String
  params : String
  query : String
  fragment : String
deriving DecidableEq, Repr

/-- CPython `urllib.parse.urlparse` with a default scheme. -/
def urlparse (s : String) (defScheme : String) : ParseResult :=
  let sp := urlsplit s defScheme
  if sp.scheme ∈ usesParams ∧ sp.path.toList.contains ';' then
    let (p, par) := splitparams sp.path.toList
    ⟨sp.scheme, sp.netloc, ⟨p⟩, ⟨par⟩, sp.query, sp.fragment⟩
  else
    ⟨sp.scheme, sp.netloc, sp.path, "", sp.query, sp.fragment⟩

/-- CPython `urlunsplit`. -/
def urlunsplit (scheme netloc path query fragment : String) : String :=
  let url := path
  let url :=
    if netloc ≠ "" ∨ url.toList.take 2 = ['/', '/'] then
      "//" ++ netloc ++
        (if url ≠ "" ∧ url.toList.take 1 ≠ ['/'] then "/" ++ url else url)
    else url
  let url := if scheme ≠ "" then scheme ++ ":" ++ url else url
  let url := if query ≠ "" then url ++ "?" ++ query else url
  if fragment ≠ "" then url ++ "#" ++ fragment else url

/-- CPython `urlunparse`. -/
def urlunparse (scheme netloc path params query fragment : String) : String :=
  urlunsplit scheme netloc
    (if params ≠ "" then path ++ ";" ++ params else path) query fragment

/-- Keep the first and last element, dropping empty strings in between
(CPython `segments[1:-1] = filter(None, segments[1:-1])`), tail part. -/
def filterMiddleAux : List String → List String
  | [] => []
  | [a] => [a]
  | a :: rest => if a = "" then filterMiddleAux rest else a :: filterMiddleAux rest

/-- Keep the first and last element, dropping empty strings in between. -/
def filterMiddle : List String → List String
  | [] => []
  | [a] => [a]
  | a :: rest => a :: filterMiddleAux rest

/-- Python `str.split(sep)` on characters: split at every occurrence
of `c`, keeping empty pieces. -/
def splitOnChar (c : Char) : List Char → List (List Char)
  | [] => [[]]
  | x :: xs =>
    let r := splitOnChar c xs
    if x = c then [] :: r
    else
      match r with
      | h :: t => (x :: h) :: t
      | [] => [[x]]

/-- Python `sep.join(parts)` on characters. -/
def joinChar (c : Char) : List (List Char) → List Char
  | [] => []
  | [x] => x
  | x :: y :: rest => x ++ c :: joinChar c (y :: rest)

/-- Dot-segment resolution loop of CPython `urljoin`: `..` pops the last
resolved segment (ignoring underflow), `.` is skipped, everything else
is appended. -/
def resolveSegments : List String → List String → List String
  | [], acc => acc
  | seg :: rest, acc =>
    if seg = ".." then resolveSegments rest acc.dropLast
    else if seg = "." then resolveSegments rest acc
    else resolveSegments rest (acc ++ [seg])

/-- CPython `urllib.parse.urljoin`. -/
def urljoin (base url : String) : String :=
  if base = "" then url
  else if url = "" then base
  else
    let b := urlparse base ""
    let u := urlparse url b.scheme
    if u.scheme ≠ b.scheme ∨ u.scheme ∉ usesRelative then url
    else if u.scheme ∈ usesNetloc ∧ u.netloc ≠ "" then
      urlunparse u.scheme u.netloc u.path u.params u.query u.fragment
    else
      let netloc := if u.scheme ∈ usesNetloc then b.netloc else u.netloc
      if u.path = "" ∧ u.params = "" then
        let query := if u.query = "" then b.query else u.query
        urlunparse u.scheme netloc b.path b.params query u.fragment
      else
        let baseParts := (splitOnChar '/' b.path.toList).map (fun l => (⟨l⟩ : String))
        let baseParts :=
          if baseParts.getLast? ≠ some "" then baseParts.dropLast else baseParts
        let urlParts := (splitOnChar '/' u.path.toList).map (fun l => (⟨l⟩ : String))
        let segments :=
          if u.path.toList.take 1 = ['/'] then urlParts
          else filterMiddle (baseParts ++ urlParts)
        let resolved := resolveSegments segments []
        let resolved :=
          if segments.getLast? = some "." ∨ segments.getLast? = some ".." then
            resolved ++ [""]
          else resolved
        let rp : String := ⟨joinChar '/' (resolved.map String.toList)⟩
        urlunparse u.scheme netloc (if rp = "" then "/" else rp) u.params u.query u.fragment

end Urllib

/-- Python `str.lower()` for the ASCII strings the code lowercases. -/
def pyLower (s : String) : String := ⟨s.toList.map Char.toLower⟩

/-- A Python whitespace character (`str.strip()`'s default set). -/
def isPySpace (c : Char) : Bool :=
  c = ' ' || c = '\t' || c = '\n' || c = '\r' || c = '\x0b' || c = '\x0c'

/-- Python `str.strip()`: drop leading and trailing whitespace. -/
def pyStrip (s : String) : String :=
  ⟨((s.toList.dropWhile isPySpace).reverse.dropWhile isPySpace).reverse⟩

/-- A parsed HTML node, the tree-level model of a BeautifulSoup
document node: either a text node or an element with a tag name, an
attribute list, and child nodes. -/
inductive Html where
  | text : String → Html
  | elem : String → List (String × String) → List Html → Html

mutual

/-- Decidable equality for `Html` (the nested inductive prevents
`deriving`). -/
def decEqHtml : (a b : Html) → Decidable (a = b)
  | .text s, .text t =>
    if h : s = t then .isTrue (by rw [h]) else .isFalse (by simp [h])
  | .text _, .elem _ _ _ => .isFalse (by simp)
  | .elem _ _ _, .text _ => .isFalse (by simp)
  | .elem t1 a1 c1, .elem t2 a2 c2 =>
    if h1 : t1 = t2 then
      if h2 : a1 = a2 then
        match decEqHtmlList c1 c2 with
        | .isTrue h3 => .isTrue (by rw [h1, h2, h3])
        | .isFalse h3 => .isFalse (by simp [h3])
      else .isFalse (by simp [h2])
    else .isFalse (by simp [h1])

/-- Decidable equality for `Html` forests. -/
def decEqHtmlList : (a b : List Html) → Decidable (a = b)
  | [], [] => .isTrue rfl
  | [], _ :: _ => .isFalse (by simp)
  | _ :: _, [] => .isFalse (by simp)
  | x :: xs, y :: ys =>
    match decEqHtml x y with
    | .isTrue h1 =>
      match decEqHtmlList xs ys with
      | .isTrue h2 => .isTrue (by rw [h1, h2])
      | .isFalse h2 => .isFalse (by simp [h2])
    | .isFalse h1 => .isFalse (by simp [h1])

end

instance : DecidableEq Html := decEqHtml

namespace Html

/-- HTML-escape one text character. -/
def escapeChar (c : Char) : List Char :=
  if c = '&' then '&' :: 'a' :: 'm' :: 'p' :: [';']
  else if c = '<' then '&' :: 'l' :: 't' :: [';']
  else if c = '>' then '&' :: 'g' :: 't' :: [';']
  else [c]

/-- HTML-escape a text node for serialization. -/
def escapeText (s : String) : String :=
  ⟨s.toList.flatMap escapeChar⟩

/-- Serialize an attribute list as ` k="v"` pairs. -/
def renderAttrs (attrs : List (String × String)) : String :=
  attrs.foldl (fun acc p => acc ++ " " ++ p.1 ++ "=\"" ++ p.2 ++ "\"") ""

mutual

/-- Serialize one node (the model of BeautifulSoup `str(tag)`). -/
def renderNode : Html → String
  | .text s => escapeText s
  | .elem tag attrs cs =>
    "<" ++ tag ++ renderAttrs attrs ++ ">" ++ render cs ++ "</" ++ tag ++ ">"

/-- Serialize a forest (the model of BeautifulSoup `str(soup)`). -/
def render : List Html → String
  | [] => ""
  | n :: rest => renderNode n ++ render rest

end

/-- Dictionary-style attribute lookup (`tag["k"]` / `tag.get("k")`). -/
def attrLookup (attrs : List (String × String)) (k : String) : Option String :=
  match attrs.find? (fun p => p.1 = k) with
  | some p => some p.2
  | none => none

/-- First element (pre-order, the order of BeautifulSoup `find`)
satisfying a predicate on tag name and attributes. -/
def findFirstElem (p : String → List (String × String) → Bool) :
    List Html → Option Html
  | [] => none
  | .text _ :: rest => findFirstElem p rest
  | .elem tag attrs cs :: rest =>
    if p tag attrs then some (.elem tag attrs cs)
    else
      match findFirstElem p cs with
      | some e => some e
      | none => findFirstElem p rest

/-- `soup.find(t)`: first element with the given tag name. -/
def findFirstTag (t : String) (f : List Html) : Option Html :=
  findFirstElem (fun tag _ => tag = t) f

/-- BeautifulSoup `tag.string`: defined when the node is a text node,
or an element with exactly one child whose `string` is defined. -/
def nodeString : Html → Option String
  | .text s => some s
  | .elem _ _ [c] => nodeString c
  | .elem _ _ _ => none

/-- Concatenated text content of a forest. -/
def textContent : List Html → String
  | [] => ""
  | .text s :: rest => s ++ textContent rest
  | .elem _ _ cs :: rest => textContent cs ++ textContent rest

end Html

namespace Parser

open Html

/-- Output of `WebsiteParserService.parse`: the `title`, the
`metadata.description`, and the raw content body.  The body is kept at
tree level (`content`); the string the Python code stores is its
serialization `Html.render content`. -/
structure ParsedData where
  title : String
  metaDescription : String
  content : List Html
deriving DecidableEq

/-- Output of `WebsiteParserService.clean`: `parse`'s fields plus the
`cleaned_content` string. -/
structure CleanedData where
  title : String
  metaDescription : String
  content : List Html
  cleaned_content : String
deriving DecidableEq

/-- The search predicate of `soup.find("meta", attrs={"name": "description"})`. -/
def isMetaDescription (tag : String) (attrs : List (String × String)) : Bool :=
  tag = "meta" && Html.attrLookup attrs "name" = some "description"

/-- `WebsiteParserService.parse` (src/app/core/parser/service.py).
Raises on empty HTML; `soup.title.string` with an undefined `.string`
makes `title.strip()` raise inside the `try`, as does `meta["content"]`
on a description tag without a `content` attribute; otherwise the body
is the first `body` element, or the whole document when none exists. -/
def parse (doc : List Html) : Except String ParsedData :=
  if render doc = "" then .error "Empty HTML content provided"
  else
    let titleOpt : Option String :=
      match findFirstTag "title" doc with
      | some t => nodeString t
      | none => some "No title"
    let metaRes : Except String String :=
      match findFirstElem (fun tag attrs => isMetaDescription tag attrs) doc with
      | some (.elem _ attrs _) =>
        match attrLookup attrs "content" with
        | some v => .ok v
        | none => .error "Failed to parse HTML: KeyError content"
      | _ => .ok ""
    match metaRes with
    | .error e => .error e
    | .ok metaDescription =>
      match titleOpt with
      | none => .error "Failed to parse HTML: NoneType object has no attribute strip"
      | some title =>
        let content : List Html :=
          match findFirstTag "body" doc with
          | some b => [b]
          | none => doc
        .ok ⟨pyStrip title, metaDescription, content⟩

/-- `WebsiteParserService.NOISE_TAGS`. -/
def NOISE_TAGS : List String :=
  ["script", "style", "iframe", "noscript", "meta", "link", "svg",
   "form", "input", "button"]

/-- `WebsiteParserService.BOILERPLATE_TAGS`. -/
def BOILERPLATE_TAGS : List String := ["header", "footer", "nav", "aside"]

/-- One `for tag in soup.find_all(t): tag.decompose()` pass: removes
every element with tag `t`, together with all its descendants, at any
nesting depth. -/
def decomposeTag (t : String) : List Html → List Html
  | [] => []
  | .text s :: rest => .text s :: decomposeTag t rest
  | .elem tag attrs cs :: rest =>
    if tag = t then decomposeTag t rest
    else .elem tag attrs (decomposeTag t cs) :: decomposeTag t rest

/-- The decompose loops of `clean`, one pass per tag name. -/
def decomposeAll (ts : List String) (f : List Html) : List Html :=
  ts.foldl (fun acc t => decomposeTag t acc) f

/-- The attribute allow-list of `clean`. -/
def ALLOWED_ATTRS : List String := ["src", "href", "alt", "title"]

/-- The attribute-stripping loop of `clean`: on every remaining
element, delete every attribute whose name is not allow-listed. -/
def stripAttrs : List Html → List Html
  | [] => []
  | .text s :: rest => .text s :: stripAttrs rest
  | .elem tag attrs cs :: rest =>
    .elem tag (attrs.filter (fun p => p.1 ∈ ALLOWED_ATTRS)) (stripAttrs cs) :: stripAttrs rest

/-- The tree transformation performed by `clean`'s body. -/
def cleanForest (f : List Html) : List Html :=
  stripAttrs (decomposeAll BOILERPLATE_TAGS (decomposeAll NOISE_TAGS f))

/-- `WebsiteParserService.clean`: returns the input record with
`cleaned_content` added; empty content yields `""` without work. -/
def clean (data : ParsedData) : CleanedData :=
  if render data.content = "" then
    ⟨data.title, data.metaDescription, data.content, ""⟩
  else
    ⟨data.title, data.metaDescription, data.content, render (cleanForest data.content)⟩

/-- `soup.find_all("a", href=True)`: the `href` values of all anchor
elements that carry an `href` attribute, in document (pre-)order. -/
def findAllAnchorHrefs : List Html → List String
  | [] => []
  | .text _ :: rest => findAllAnchorHrefs rest
  | .elem tag attrs cs :: rest =>
    (if tag = "a" then
      match attrLookup attrs "href" with
      | some h => [h]
      | none => []
    else []) ++ findAllAnchorHrefs cs ++ findAllAnchorHrefs rest

/-- The fragment marker. -/
def isHashChar (c : Char) : Bool := c = '#'

/-- A slash. -/
def isSlashChar (c : Char) : Bool := c = '/'

/-- Python `s.split("#")[0]` on characters. -/
def stripHashL (l : List Char) : List Char :=
  l.takeWhile (fun c => !isHashChar c)

/-- Python `s.rstrip("/")` on characters. -/
def rstripL (l : List Char) : List Char :=
  (l.reverse.dropWhile isSlashChar).reverse

/-- Python `s.split("#")[0]`. -/
def splitHashHead (s : String) : String := ⟨stripHashL s.toList⟩

/-- Python `s.rstrip("/")`: removes every trailing slash. -/
def rstripSlash (s : String) : String := ⟨rstripL s.toList⟩

/-- The per-anchor body of the `extract_links` loop: resolve against
the current URL, parse, drop the fragment and trailing slashes, and
keep the link only when the parsed host equals the base domain and the
scheme is http or https. -/
def processHref (current_url base_domain href : String) : Option String :=
  let full_url := Urllib.urljoin current_url href
  let parsed := Urllib.urlparse full_url ""
  let stripped := rstripSlash (splitHashHead full_url)
  if parsed.netloc = base_domain ∧ (parsed.scheme = "http" ∨ parsed.scheme = "https") then
    some stripped
  else none

/-- `WebsiteParserService.extract_links` (src/app/core/parser/service.py):
the appending loop over all anchors. -/
def extract_links (doc : List Html) (current_url base_domain : String) : List String :=
  (findAllAnchorHrefs doc).foldl
    (fun acc href =>
      match processHref current_url base_domain href with
      | some l => acc ++ [l]
      | none => acc) []

end Parser

namespace Md5

/-- 2^32 - 1, the 32-bit mask. -/
def mask32 : Nat := 4294967295

/-- Addition modulo 2^32. -/
def add32 (a b : Nat) : Nat := (a + b) % 4294967296

/-- Left rotation of a 32-bit word. -/
def rotl32 (x n : Nat) : Nat := ((x <<< n) ||| (x >>> (32 - n))) &&& mask32

/-- Bitwise complement of a 32-bit word. -/
def not32 (x : Nat) : Nat := x ^^^ mask32

/-- The MD5 sine-derived constant table K. -/
def K : List Nat :=
  [0xd76aa478, 0xe8c7b756, 0x242070db, 0xc1bdceee,
   0xf57c0faf, 0x4787c62a, 0xa8304613, 0xfd469501,
   0x698098d8, 0x8b44f7af, 0xffff5bb1, 0x895cd7be,
   0x6b901122, 0xfd987193, 0xa679438e, 0x49b40821,
   0xf61e2562, 0xc040b340, 0x265e5a51, 0xe9b6c7aa,
   0xd62f105d, 0x02441453, 0xd8a1e681, 0xe7d3fbc8,
   0x21e1cde6, 0xc33707d6, 0xf4d50d87, 0x455a14ed,
   0xa9e3e905, 0xfcefa3f8, 0x676f02d9, 0x8d2a4c8a,
   0xfffa3942, 0x8771f681, 0x6d9d6122, 0xfde5380c,
   0xa4beea44, 0x4bdecfa9, 0xf6bb4b60, 0xbebfbc70,
   0x289b7ec6, 0xeaa127fa, 0xd4ef3085, 0x04881d05,
   0xd9d4d039, 0xe6db99e5, 0x1fa27cf8, 0xc4ac5665,
   0xf4292244, 0x432aff97, 0xab9423a7, 0xfc93a039,
   0x655b59c3, 0x8f0ccc92, 0xffeff47d, 0x85845dd1,
   0x6fa87e4f, 0xfe2ce6e0, 0xa3014314, 0x4e0811a1,
   0xf7537e82, 0xbd3af235, 0x2ad7d2bb, 0xeb86d391]

/-- The MD5 per-round shift amounts. -/
def S : List Nat :=
  [7, 12, 17, 22, 7, 12, 17, 22, 7, 12, 17, 22, 7, 12, 17, 22,
   5, 9, 14, 20, 5, 9, 14, 20, 5, 9, 14, 20, 5, 9, 14, 20,
   4, 11, 16, 23, 4, 11, 16, 23, 4, 11, 16, 23, 4, 11, 16, 23,
   6, 10, 15, 21, 6, 10, 15, 21, 6, 10, 15, 21, 6, 10, 15, 21]

/-- One of the 64 MD5 rounds on state (A, B, C, D). -/
def step (block : List Nat) (st : Nat × Nat × Nat × Nat) (i : Nat) :
    Nat × Nat × Nat × Nat :=
  let A := st.1
  let B := st.2.1
  let C := st.2.2.1
  let D := st.2.2.2
  let Fg : Nat × Nat :=
    if i < 16 then ((B &&& C) ||| (not32 B &&& D), i)
    else if i < 32 then ((D &&& B) ||| (not32 D &&& C), (5 * i + 1) % 16)
    else if i < 48 then (B ^^^ C ^^^ D, (3 * i + 5) % 16)
    else (C ^^^ (B ||| not32 D), (7 * i) % 16)
  let F := (Fg.1 + A + K.getD i 0 + block.getD Fg.2 0) % 4294967296
  (D, add32 B (rotl32 F (S.getD i 0)), B, C)

/-- Process one 16-word block, adding the round result into the
running state. -/
def processBlock (st : Nat × Nat × Nat × Nat) (block : List Nat) :
    Nat × Nat × Nat × Nat :=
  let r := (List.range 64).foldl (step block) st
  (add32 st.1 r.1, add32 st.2.1 r.2.1, add32 st.2.2.1 r.2.2.1, add32 st.2.2.2 r.2.2.2)

/-- Group a byte list into 32-bit little-endian words. -/
def toWords : List Nat → List Nat
  | b0 :: b1 :: b2 :: b3 :: rest =>
    (b0 + 256 * b1 + 65536 * b2 + 16777216 * b3) :: toWords rest
  | _ => []

/-- Split a byte list into 64-byte chunks (`fuel` bounds the number of
chunks; `chunks64` supplies the list length, which is always enough). -/
def chunks64Fuel : Nat → List Nat → List (List Nat)
  | 0, _ => []
  | _, [] => []
  | fuel + 1, x :: xs => ((x :: xs).take 64) :: chunks64Fuel fuel ((x :: xs).drop 64)

/-- Split a byte list into 64-byte chunks. -/
def chunks64 (l : List Nat) : List (List Nat) := chunks64Fuel l.length l

/-- `k` little-endian bytes of `n`. -/
def leBytes (n : Nat) : Nat → List Nat
  | 0 => []
  | k + 1 => (n % 256) :: leBytes (n / 256) k

/-- MD5 padding: a 1-bit (0x80 byte), zeros to 56 mod 64, and the
64-bit little-endian bit length. -/
def padMessage (msg : List Nat) : List Nat :=
  let z := (119 - msg.length % 64) % 64
  msg ++ [0x80] ++ List.replicate z 0 ++ leBytes ((8 * msg.length) % 18446744073709551616) 8

/-- The MD5 initial state. -/
def initState : Nat × Nat × Nat × Nat :=
  (0x67452301, 0xefcdab89, 0x98badcfe, 0x10325476)

/-- MD5 digest of a byte list, as 16 bytes. -/
def digestBytes (msg : List Nat) : List Nat :=
  let r := ((chunks64 (padMessage msg)).map toWords).foldl processBlock initState
  leBytes r.1 4 ++ leBytes r.2.1 4 ++ leBytes r.2.2.1 4 ++ leBytes r.2.2.2 4

/-- Lowercase hex digit. -/
def hexDigit (n : Nat) : Char :=
  if n < 10 then Char.ofNat (48 + n) else Char.ofNat (87 + n)

/-- Render a byte list as lowercase hex. -/
def toHex (bytes : List Nat) : String :=
  ⟨bytes.flatMap (fun b => [hexDigit (b / 16), hexDigit (b % 16)])⟩

/-- `hashlib.md5(x).hexdigest()`. -/
def hexdigest (msg : List Nat) : String := toHex (digestBytes msg)

/-- UTF-8 encoding of one code point. -/
def utf8EncodeCharNat (n : Nat) : List Nat :=
  if n < 0x80 then [n]
  else if n < 0x800 then
    [0xC0 ||| (n >>> 6), 0x80 ||| (n &&& 0x3F)]
  else if n < 0x10000 then
    [0xE0 ||| (n >>> 12), 0x80 ||| ((n >>> 6) &&& 0x3F), 0x80 ||| (n &&& 0x3F)]
  else
    [0xF0 ||| (n >>> 18), 0x80 ||| ((n >>> 12) &&& 0x3F),
     0x80 ||| ((n >>> 6) &&& 0x3F), 0x80 ||| (n &&& 0x3F)]

/-- Python `url.encode("utf-8")` as a byte list. -/
def utf8Bytes (s : String) : List Nat :=
  (s.data.map Char.toNat).flatMap utf8EncodeCharNat

end Md5

/-- The configuration fields of `app.core.config.Settings` that the
modelled code reads (storage paths rendered as strings). -/
structure Settings where
  TARGET_URL : String
  MAX_CRAWL_DEPTH : Nat
  MAX_CONCURRENT_REQUESTS : Nat
  HTML_STORAGE_PATH : String
  MARKDOWN_STORAGE_PATH : String
  MISC_STORAGE_PATH : String
deriving DecidableEq, Repr

/-- The default `settings` singleton of src/app/core/config.py. -/
def settings : Settings :=
  ⟨"https://www.example.com/", 3, 5, "storage/html", "storage/markdown", "storage/misc"⟩

namespace Storage

/-- A JSON-able metadata value. -/
inductive JVal where
  | s : String → JVal
  | n : Nat → JVal
  | null : JVal
deriving DecidableEq, Repr

/-- Python dict assignment `d[k] = v`: overwrite in place when the key
exists, append otherwise. -/
def setKey (d : List (String × JVal)) (k : String) (v : JVal) :
    List (String × JVal) :=
  if d.any (fun p => p.1 = k) then
    d.map (fun p => if p.1 = k then (k, v) else p)
  else d ++ [(k, v)]

/-- Content of a stored file: the text artifact, or the metadata
sidecar (kept as the JSON dict it serializes). -/
inductive FileContent where
  | text : String → FileContent
  | json : List (String × JVal) → FileContent
deriving DecidableEq, Repr

/-- The filesystem, as a path-indexed store. -/
abbrev FS := List (String × FileContent)

/-- Writing a file: `open(path, "w")` overwrite semantics — replace
the entry at the path when it exists, otherwise append it. -/
def fsWrite (fs : FS) (p : String) (c : FileContent) : FS :=
  match fs with
  | [] => [(p, c)]
  | (q, d) :: rest => if q = p then (p, c) :: rest else (q, d) :: fsWrite rest p c

/-- Reading a file, `none` when the path does not exist. -/
def fsLookup (fs : FS) (p : String) : Option FileContent :=
  match fs.find? (fun q => q.1 = p) with
  | some q => some q.2
  | none => none

/-- `FileSystemStorageService._generate_filename`: the MD5 hex digest
of the UTF-8 encoded URL. -/
def generate_filename (url : String) : String :=
  Md5.hexdigest (Md5.utf8Bytes url)

/-- The storage directory `save` selects for an extension. -/
def basePath (cfg : Settings) (extension : String) : String :=
  if pyLower extension = "html" ∨ pyLower extension = "htm" then
    cfg.HTML_STORAGE_PATH
  else if pyLower extension = "markdown" ∨ pyLower extension = "md" then
    cfg.MARKDOWN_STORAGE_PATH
  else cfg.MISC_STORAGE_PATH

/-- The content-artifact path `save` writes to. -/
def savePath (cfg : Settings) (url extension : String) : String :=
  basePath cfg extension ++ "/" ++ generate_filename url ++ "." ++ extension

/-- The sidecar path `save` writes metadata to. -/
def metaPath (cfg : Settings) (url extension : String) : String :=
  basePath cfg extension ++ "/" ++ generate_filename url ++ ".json"

/-- `FileSystemStorageService.save` (src/app/core/storage/service.py):
writes the content artifact, and, when `metadata` is truthy (present
and non-empty), also a sidecar with `source_url` set to the URL.
Returns the new store and the content path. -/
def save (cfg : Settings) (fs : FS) (url content extension : String)
    (metadata : Option (List (String × JVal))) : FS × String :=
  let file_path := savePath cfg url extension
  let fs1 := fsWrite fs file_path (.text content)
  let fs2 :=
    match metadata with
    | some md =>
      if md ≠ [] then
        fsWrite fs1 (metaPath cfg url extension) (.json (setKey md "source_url" (.s url)))
      else fs1
    | none => fs1
  (fs2, file_path)

end Storage

namespace Interactor

/-- A Python value stored in the dicts `run_scraping` returns. -/
inductive PyVal where
  | int : Nat → PyVal
  | str : String → PyVal
  | strList : List String → PyVal
deriving DecidableEq, Repr

/-- The mutable stats dict `{"processed": 0, "failed": 0, "errors": []}`
of `run_scraping` (src/app/core/interactor.py line 49). -/
structure Stats where
  processed : Nat
  failed : Nat
  errors : List String
deriving DecidableEq, Repr

/-- The initial stats dict. -/
def Stats.init : Stats := ⟨0, 0, []⟩

/-- The returned stats dict, key by key. -/
def Stats.toDict (s : Stats) : List (String × PyVal) :=
  [("processed", .int s.processed), ("failed", .int s.failed),
   ("errors", .strList s.errors)]

/-- `stats["errors"].append e`. -/
def Stats.addError (s : Stats) (e : String) : Stats :=
  ⟨s.processed, s.failed, s.errors ++ [e]⟩

/-- `stats["failed"] += 1`. -/
def Stats.incFailed (s : Stats) : Stats := ⟨s.processed, s.failed + 1, s.errors⟩

/-- `stats["processed"] += 1`. -/
def Stats.incProcessed (s : Stats) : Stats := ⟨s.processed + 1, s.failed, s.errors⟩

/-- The fields the interactor reads from the parser's page dicts
(`cleaned_data.get("cleaned_content", "")`, `cleaned_data.get("title")`). -/
structure PageRecord where
  title : Option String
  cleaned_content : Option String
deriving DecidableEq, Repr

/-- The metadata dict `{"title": ..., "depth": ..., "crawled_at": ...}`
built for the markdown save. -/
structure MetaDict where
  title : Option String
  depth : Nat
  crawled_at : Nat
deriving DecidableEq, Repr

/-- One attempted `storage.save` call, as observed at the port. -/
structure SaveCall where
  url : String
  kind : String
  metadata : Option MetaDict
deriving DecidableEq, Repr

/-- The ports of `WebScraperInteractor` (scraper, storage, parser,
converter) plus the clock, as an environment of effectful operations;
`Except String α` models a Python call that may raise. -/
structure Env where
  startSession : Bool
  fetchPage : String → Except String (Option String)
  storageSave : String → String → String → Option MetaDict → Except String String
  parserParse : String → Except String PageRecord
  parserClean : PageRecord → Except String PageRecord
  converterConvert : String → Except String String
  parserExtractLinks : String → String → String → Except String (List String)
  now : Nat

/-- Python truthiness of the fetched `Optional[str]` (`if not html`). -/
def pyFalsy : Option String → Bool
  | none => true
  | some s => s = ""

/-- The crawl-run state owned by `run_scraping`: the frontier
`to_visit`, the `visited_urls` set, and the stats dict.  `history`
records every drained (hence processed) entry, in drain order; the
code does not store it, it is the observation the invariant claims
speak about. -/
structure CrawlState where
  to_visit : List (String × Nat)
  visited : List String
  stats : Stats
  history : List (String × Nat)
deriving DecidableEq, Repr

/-- Which exit the pipeline took: an exception caught by the final
`except` (with its message), the empty-fetch early return, or the
normal path. -/
inductive Outcome where
  | raised : String → Outcome
  | fetchEmpty : Outcome
  | ok : Outcome
deriving DecidableEq, Repr

/-- The pipeline's effect: the updated run state, the storage calls it
attempted, the frontier entries it appended, and the exit taken. -/
structure PipelineResult where
  state : CrawlState
  saves : List SaveCall
  enqueued : List (String × Nat)
  outcome : Outcome
deriving DecidableEq, Repr

/-- `WebScraperInteractor._process_url_pipeline`
(src/app/core/interactor.py lines 96-151).  The whole body runs inside
`try`; an exception from any step is caught and appended to
`stats["errors"]` as `"<url>: <message>"`.  An empty fetch increments
`stats["failed"]` and returns.  On the normal path the raw HTML and
the converted markdown are saved, `stats["processed"]` is incremented,
and, when `depth < max_depth`, the extracted links not yet visited are
appended to `to_visit` with depth `depth + 1`. -/
def process_url_pipeline (env : Env) (url : String) (depth max_depth : Nat)
    (base_domain : String) (st : CrawlState) : PipelineResult :=
  match env.fetchPage url with
  | .error e =>
    ⟨{st with stats := st.stats.addError (url ++ ": " ++ e)}, [], [], .raised e⟩
  | .ok html? =>
    if pyFalsy html? then
      ⟨{st with stats := st.stats.incFailed}, [], [], .fetchEmpty⟩
    else
      let html := html?.getD ""
      let save1 : SaveCall := ⟨url, "html", none⟩
      match env.storageSave url html "html" none with
      | .error e =>
        ⟨{st with stats := st.stats.addError (url ++ ": " ++ e)}, [save1], [], .raised e⟩
      | .ok _ =>
        match env.parserParse html with
        | .error e =>
          ⟨{st with stats := st.stats.addError (url ++ ": " ++ e)}, [save1], [], .raised e⟩
        | .ok parsed_data =>
          match env.parserClean parsed_data with
          | .error e =>
            ⟨{st with stats := st.stats.addError (url ++ ": " ++ e)}, [save1], [], .raised e⟩
          | .ok cleaned_data =>
            let content := cleaned_data.cleaned_content.getD ""
            match env.converterConvert content with
            | .error e =>
              ⟨{st with stats := st.stats.addError (url ++ ": " ++ e)}, [save1], [], .raised e⟩
            | .ok markdown_content =>
              let metadata : MetaDict := ⟨cleaned_data.title, depth, env.now⟩
              let save2 : SaveCall := ⟨url, "md", some metadata⟩
              match env.storageSave url markdown_content "md" (some metadata) with
              | .error e =>
                ⟨{st with stats := st.stats.addError (url ++ ": " ++ e)}, [save1, save2], [], .raised e⟩
              | .ok _ =>
                let st1 := {st with stats := st.stats.incProcessed}
                if depth < max_depth then
                  match env.parserExtractLinks html url base_domain with
                  | .error e =>
                    ⟨{st1 with stats := st1.stats.addError (url ++ ": " ++ e)},
                     [save1, save2], [], .raised e⟩
                  | .ok links =>
                    let new_entries :=
                      (links.filter (fun l => l ∉ st.visited)).map (fun l => (l, depth + 1))
                    ⟨{st1 with to_visit := st1.to_visit ++ new_entries},
                     [save1, save2], new_entries, .ok⟩
                else ⟨st1, [save1, save2], [], .ok⟩

/-- The inner drain loop of `run_scraping` (lines 56-61): pop from the
frontier while it is non-empty and the batch is below the concurrency
limit; a popped URL not yet visited is marked visited and enters the
batch.  Returns the batch, the visited set, and the rest of the
frontier. -/
def drainBatchAux (limit : Nat) :
    List (String × Nat) → List String → List (String × Nat) →
    List (String × Nat) × List String × List (String × Nat)
  | [], visited, batch => (batch, visited, [])
  | (url, depth) :: rest, visited, batch =>
    if batch.length < limit then
      if url ∈ visited then drainBatchAux limit rest visited batch
      else drainBatchAux limit rest (url :: visited) (batch ++ [(url, depth)])
    else (batch, visited, (url, depth) :: rest)

/-- `asyncio.gather` over the batch's pipelines.  The event loop is
single threaded; the model executes the pipelines in batch order, each
seeing the effects of the previous ones. -/
def runBatch (env : Env) (max_depth : Nat) (base_domain : String)
    (batch : List (String × Nat)) (st : CrawlState) : CrawlState :=
  batch.foldl
    (fun s e => (process_url_pipeline env e.1 e.2 max_depth base_domain s).state) st

/-- One iteration of the `while to_visit` loop: `none` when the loop
terminates (empty frontier, or an all-visited drain producing an empty
batch hits the `break`). -/
def crawlStep (env : Env) (max_depth limit : Nat) (base_domain : String)
    (st : CrawlState) : Option CrawlState :=
  match st.to_visit with
  | [] => none
  | _ :: _ =>
    let d := drainBatchAux limit st.to_visit st.visited []
    if d.1 = [] then none
    else
      some (runBatch env max_depth base_domain d.1
        ⟨d.2.2, d.2.1, st.stats, st.history ++ d.1⟩)

/-- The `while to_visit` loop, with fuel bounding the number of
batches. -/
def crawlLoop (env : Env) (max_depth limit : Nat) (base_domain : String) :
    Nat → CrawlState → CrawlState
  | 0, st => st
  | fuel + 1, st =>
    match crawlStep env max_depth limit base_domain st with
    | none => st
    | some st1 => crawlLoop env max_depth limit base_domain fuel st1

/-- `WebScraperRequest` (src/app/core/schemas.py): an optional URL. -/
structure WebScraperRequest where
  url : Option String
deriving DecidableEq, Repr

/-- Python `f"{request.url}"` on the optional URL. -/
def pyStrOfOptionUrl : Option String → String
  | some u => u
  | none => "None"

/-- The initial crawl state of a run seeded with `start_url`. -/
def initState (start_url : String) : CrawlState :=
  ⟨[(start_url, 0)], [], Stats.init, []⟩

/-- `WebScraperInteractor.run_scraping` (src/app/core/interactor.py
lines 35-94).  If `start_session` fails it returns the single-key dict
`{"error": f"Failed to start scraper for {request.url}"}`; otherwise
it runs the crawl loop and returns the stats dict, whose keys are
exactly `processed`, `failed` and `errors` (the computed `duration` is
only logged, never stored in the dict). -/
def run_scraping (cfg : Settings) (env : Env) (fuel : Nat)
    (request : WebScraperRequest) : List (String × PyVal) :=
  let start_url := match request.url with | some u => u | none => cfg.TARGET_URL
  if !env.startSession then
    [("error", .str ("Failed to start scraper for " ++ pyStrOfOptionUrl request.url))]
  else
    let base_domain := (Urllib.urlparse start_url "").netloc
    let final := crawlLoop env cfg.MAX_CRAWL_DEPTH cfg.MAX_CONCURRENT_REQUESTS
      base_domain fuel (initState start_url)
    final.stats.toDict

end Interactor

/-! ## Concrete environments used by witnesses and counterexamples -/

/-- A port environment whose browser session fails to start. -/
def envDown : Interactor.Env :=
  ⟨false, fun _ => .ok none, fun _ _ _ _ => .ok "", fun _ => .ok ⟨none, none⟩,
   fun r => .ok r, fun s => .ok s, fun _ _ _ => .ok [], 0⟩

/-- An environment whose every port succeeds: fetch yields a fixed
page, the parser echoes, and link extraction returns two fixed
children of the current URL. -/
def envUp : Interactor.Env :=
  ⟨true, fun _ => .ok (some "<html>x</html>"), fun _ _ _ _ => .ok "p",
   fun _ => .ok ⟨some "T", some "c"⟩, fun r => .ok r, fun s => .ok s,
   fun _ u _ => .ok [u ++ "/a", u ++ "/b"], 7⟩

/-- An environment whose fetch always returns an empty page. -/
def envEmptyFetch : Interactor.Env :=
  ⟨true, fun _ => .ok (some ""), fun _ _ _ _ => .ok "p",
   fun _ => .ok ⟨some "T", some "c"⟩, fun r => .ok r, fun s => .ok s,
   fun _ _ _ => .ok [], 0⟩

/-- An environment whose parser raises on every page. -/
def envParseBoom : Interactor.Env :=
  ⟨true, fun _ => .ok (some "<html>x</html>"), fun _ _ _ _ => .ok "p",
   fun _ => .error "boom", fun r => .ok r, fun s => .ok s,
   fun _ _ _ => .ok [], 0⟩

/-- An empty crawl-run state with one pending URL, used as a pipeline
starting point. -/
def st0 : Interactor.CrawlState := ⟨[], [], Interactor.Stats.init, []⟩

/-- No element anywhere in the forest has tag `t`. -/
def noTagB (t : String) : List Html → Bool
  | [] => true
  | .text _ :: rest => noTagB t rest
  | .elem tag _ cs :: rest =>
    if tag = t then false else noTagB t cs && noTagB t rest

/-- The forest contains none of the noise or boilerplate tags that
`clean` decomposes. -/
def noRemovedTags (f : List Html) : Bool :=
  (Parser.NOISE_TAGS ++ Parser.BOILERPLATE_TAGS).all (fun t => noTagB t f)

/-- Every element of the forest carries only allow-listed attributes. -/
def attrsAllowedB : List Html → Bool
  | [] => true
  | .text _ :: rest => attrsAllowedB rest
  | .elem _ attrs cs :: rest =>
    attrs.all (fun p => Parser.ALLOWED_ATTRS.contains p.1)
      && attrsAllowedB cs && attrsAllowedB rest

/-- A page with two identical same-domain anchors whose href carries a
double trailing slash. -/
def C5doc : List Html :=
  [Html.elem "a" [("href", "/a//")] [], Html.elem "a" [("href", "/a//")] []]

/-- A non-empty document with no `body` element whose `title` element
is empty: BeautifulSoup's `title.string` is `None` there, so
`parse`'s `title.strip()` raises inside the `try`. -/
def C9doc : List Html := [Html.elem "title" [] [], Html.text "hello"]

/-- A document used to witness the amended C9: non-empty, no `body`,
no `title`, no `meta` description. -/
def C9docW : List Html := [Html.text "hello"]

/-- A page for the C8 witness: noise, boilerplate, and a `main`
element with text and a styled link. -/
def C8doc : List Html :=
  [Html.elem "script" [] [Html.text "var x"],
   Html.elem "header" [] [Html.text "banner"],
   Html.elem "main" [("class", "wide")]
     [Html.text "Main Title",
      Html.elem "a" [("href", "/x"), ("onclick", "evil()")] [Html.text "link"]]]

/-- The run invariant of the crawl loop: the drain history is
duplicate-free, drained URLs are visited, and every frontier or
history entry sits at depth at most `max_depth`. -/
def CrawlInv (max_depth : Nat) (st : Interactor.CrawlState) : Prop :=
  (st.history.map Prod.fst).Nodup ∧
  (∀ u ∈ st.history.map Prod.fst, u ∈ st.visited) ∧
  (∀ e ∈ st.to_visit, e.2 ≤ max_depth) ∧
  (∀ e ∈ st.history, e.2 ≤ max_depth)

/-! ## C1 -/

/-- **C1** (code_bug evidence): with `start_session` returning false,
`run_scraping` returns the single-key dict
`{"error": "Failed to start scraper for <request.url>"}` — not the
stats dict `{processed: 0, failed: 1, errors: [...]}` that the spec
and the repository's own unit test
(`test_run_scraping_start_session_failure`) expect. -/
theorem C1_session_failure_returns_error_dict_not_stats :
    Interactor.run_scraping settings envDown 9 ⟨some "https://example.com/fail"⟩
      = [("error", Interactor.PyVal.str "Failed to start scraper for https://example.com/fail")] ∧
    (Interactor.run_scraping settings envDown 9 ⟨some "https://example.com/fail"⟩).map Prod.fst
      = ["error"] :=
  ⟨rfl, rfl⟩

/-! ## C4 -/

/-- **C4** (code_bug evidence): whenever the session starts, the dict
`run_scraping` returns has exactly the keys `processed`, `failed`,
`errors` — the computed duration is only logged and never returned,
although the repository's own unit tests assert `stats["duration"]`. -/
theorem C4_stats_dict_lacks_duration (cfg : Settings) (env : Interactor.Env) (fuel : Nat)
    (req : Interactor.WebScraperRequest) (h : env.startSession = true) :
    (Interactor.run_scraping cfg env fuel req).map Prod.fst
      = ["processed", "failed", "errors"] := by
  unfold Interactor.run_scraping
  rw [h]
  simp [Interactor.Stats.toDict]

/-- Witness for C4 at a concrete environment and request. -/
theorem C4_stats_dict_lacks_duration_witness :
    (Interactor.run_scraping settings envUp 3 ⟨none⟩).map Prod.fst
      = ["processed", "failed", "errors"] :=
  C4_stats_dict_lacks_duration settings envUp 3 ⟨none⟩ rfl

/-! ## C3 -/

/-- **C3**: per-URL failure semantics of the pipeline.  An empty or
absent fetch result takes the `fetchEmpty` exit; on that exit `failed`
is incremented by exactly 1, no error string is recorded, `processed`
is untouched, and no storage call is attempted.  On the exception exit
(`raised e`, the final `except` clause) the string `"<url>: <e>"` is
appended to `errors` and `failed` is untouched.  The pipeline is a
total function into `PipelineResult`, which models that the caught
exception never propagates to `run_scraping`'s caller. -/
theorem C3_pipeline_failure_asymmetry (env : Interactor.Env) (url : String)
    (depth max_depth : Nat) (base : String) (st : Interactor.CrawlState)
    (r : Interactor.PipelineResult)
    (hr : Interactor.process_url_pipeline env url depth max_depth base st = r) :
    (∀ h, env.fetchPage url = .ok h → Interactor.pyFalsy h = true →
      r.outcome = .fetchEmpty) ∧
    (r.outcome = .fetchEmpty →
      r.state.stats.failed = st.stats.failed + 1 ∧
      r.state.stats.errors = st.stats.errors ∧
      r.state.stats.processed = st.stats.processed ∧
      r.saves = []) ∧
    (∀ e, r.outcome = .raised e →
      r.state.stats.errors = st.stats.errors ++ [url ++ ": " ++ e] ∧
      r.state.stats.failed = st.stats.failed) := by
  simp only [Interactor.process_url_pipeline] at hr
  repeat' split at hr
  all_goals subst hr
  all_goals refine ⟨fun h hh hfal => ?_, fun hout => ?_, fun e' he' => ?_⟩
  all_goals simp_all [Interactor.Stats.addError, Interactor.Stats.incFailed,
    Interactor.Stats.incProcessed]

/-- Witness for C3: at `envEmptyFetch` the pipeline takes the
`fetchEmpty` exit with the claimed stats effect, and at `envParseBoom`
the exception exit with the claimed error string. -/
theorem C3_pipeline_failure_asymmetry_witness :
    ((Interactor.process_url_pipeline envEmptyFetch "https://e.com/a" 0 3 "e.com" st0).state.stats.failed
        = st0.stats.failed + 1 ∧
      (Interactor.process_url_pipeline envEmptyFetch "https://e.com/a" 0 3 "e.com" st0).saves = []) ∧
    (Interactor.process_url_pipeline envParseBoom "https://e.com/a" 0 3 "e.com" st0).state.stats.errors
        = st0.stats.errors ++ ["https://e.com/a" ++ ": " ++ "boom"] := by
  have h1 := C3_pipeline_failure_asymmetry envEmptyFetch "https://e.com/a" 0 3 "e.com" st0 _ rfl
  have h2 := C3_pipeline_failure_asymmetry envParseBoom "https://e.com/a" 0 3 "e.com" st0 _ rfl
  exact ⟨⟨(h1.2.1 rfl).1, (h1.2.1 rfl).2.2.2⟩, (h2.2.2 "boom" rfl).1⟩

/-! ## Storage lemmas, C7, C10 -/

/-- `fsLookup` on a cons cell. -/
theorem fsLookup_cons (k : String) (d : Storage.FileContent) (rest : Storage.FS)
    (q : String) :
    Storage.fsLookup ((k, d) :: rest) q
      = if k = q then some d else Storage.fsLookup rest q := by
  by_cases h : k = q <;> simp [Storage.fsLookup, List.find?, h]

/-- Reading after a write: the written path yields the new content,
any other path is untouched. -/
theorem fsLookup_fsWrite (fs : Storage.FS) (p q : String) (c : Storage.FileContent) :
    Storage.fsLookup (Storage.fsWrite fs p c) q
      = if q = p then some c else Storage.fsLookup fs q := by
  induction fs with
  | nil =>
    by_cases hq : q = p
    · subst hq
      simp [Storage.fsWrite, fsLookup_cons, Storage.fsLookup]
    · simp [Storage.fsWrite, fsLookup_cons, Ne.symm hq, hq, Storage.fsLookup, List.find?]
  | cons hd tl ih =>
    obtain ⟨k, d⟩ := hd
    by_cases hk : k = p
    · subst hk
      by_cases hq : q = k
      · subst hq
        simp [Storage.fsWrite, fsLookup_cons]
      · simp [Storage.fsWrite, fsLookup_cons, hq, Ne.symm hq]
    · by_cases hkq : k = q
      · subst hkq
        simp [Storage.fsWrite, fsLookup_cons, hk]
      · simp [Storage.fsWrite, fsLookup_cons, hk, hkq, ih]

/-- `leBytes` produces exactly `k` bytes. -/
theorem leBytes_length (n k : Nat) : (Md5.leBytes n k).length = k := by
  induction k generalizing n with
  | zero => rfl
  | succ k ih => simp [Md5.leBytes, ih]

/-- Every byte `leBytes` produces is below 256. -/
theorem leBytes_lt (n k : Nat) : ∀ b ∈ Md5.leBytes n k, b < 256 := by
  induction k generalizing n with
  | zero => intro b hb; cases hb
  | succ k ih =>
    intro b hb
    simp only [Md5.leBytes, List.mem_cons] at hb
    rcases hb with h | h
    · subst h; exact Nat.mod_lt _ (by omega)
    · exact ih _ b h

/-- The MD5 digest is 16 bytes. -/
theorem digestBytes_length (m : List Nat) : (Md5.digestBytes m).length = 16 := by
  simp [Md5.digestBytes, leBytes_length]

/-- Every MD5 digest byte is below 256. -/
theorem digestBytes_lt (m : List Nat) : ∀ b ∈ Md5.digestBytes m, b < 256 := by
  intro b hb
  simp only [Md5.digestBytes, List.mem_append] at hb
  rcases hb with ((h | h) | h) | h <;> exact leBytes_lt _ _ b h

/-- `hexDigit` of a value below 16 is a lowercase hex character. -/
theorem hexDigit_mem :
    ∀ i : Fin 16, "0123456789abcdef".toList.contains (Md5.hexDigit i.val) = true := by
  decide

/-- `toHex` has two characters per byte. -/
theorem toHex_length (bs : List Nat) : (Md5.toHex bs).length = 2 * bs.length := by
  unfold Md5.toHex
  induction bs with
  | nil => rfl
  | cons b rest ih =>
    simp only [List.flatMap_cons, String.length] at ih ⊢
    simp at ih ⊢
    omega

/-- Every character `toHex` produces from bytes below 256 is a hex
character. -/
theorem toHex_chars (bs : List Nat) (hb : ∀ b ∈ bs, b < 256) :
    ((Md5.toHex bs).toList.all
      (fun ch => "0123456789abcdef".toList.contains ch)) = true := by
  unfold Md5.toHex
  induction bs with
  | nil => rfl
  | cons b rest ih =>
    have hb0 : b < 256 := hb b (List.mem_cons_self _ _)
    have h1 : b / 16 < 16 := by omega
    have h2 : b % 16 < 16 := Nat.mod_lt _ (by omega)
    have e1 := hexDigit_mem ⟨b / 16, h1⟩
    have e2 := hexDigit_mem ⟨b % 16, h2⟩
    simp only [List.flatMap_cons, List.all_append, List.all_cons, List.all_nil]
    have ih' := ih (fun x hx => hb x (List.mem_cons_of_mem _ hx))
    simp_all [String.toList]

/-- The generated filename is always 32 characters. -/
theorem generate_filename_length (url : String) :
    (Storage.generate_filename url).length = 32 := by
  unfold Storage.generate_filename Md5.hexdigest
  rw [toHex_length, digestBytes_length]

/-! ## C7 -/

/-- **C7**: the storage location is a pure function of the URL and the
kind: the filename is the 32-hex-character (128-bit) MD5 of the URL,
identical on every call, so a second `save` for the same `(url, kind)`
resolves to the same path and overwrites the earlier content. -/
theorem C7_filename_stable_and_save_overwrites (cfg : Settings) (fs : Storage.FS)
    (url c1 c2 ext : String) :
    (Storage.generate_filename url).length = 32 ∧
    ((Storage.generate_filename url).toList.all
      (fun ch => "0123456789abcdef".toList.contains ch)) = true ∧
    (Storage.save cfg (Storage.save cfg fs url c1 ext none).1 url c2 ext none).2
      = (Storage.save cfg fs url c1 ext none).2 ∧
    Storage.fsLookup
        (Storage.save cfg (Storage.save cfg fs url c1 ext none).1 url c2 ext none).1
        (Storage.savePath cfg url ext)
      = some (.text c2) := by
  refine ⟨generate_filename_length url, ?_, rfl, ?_⟩
  · exact toHex_chars _ (digestBytes_lt _)
  · simp [Storage.save, fsLookup_fsWrite]

/-! ## C10 -/

/-- **C10**: with absent or empty metadata, `save` performs exactly the
single content write (its store effect is one `fsWrite`, and every
other path reads unchanged); a sidecar is written only for non-empty
metadata, and then carries `source_url = url`. -/
theorem C10_sidecar_only_for_nonempty_metadata (cfg : Settings) (fs : Storage.FS)
    (url content ext : String) :
    (Storage.save cfg fs url content ext none).1
        = Storage.fsWrite fs (Storage.savePath cfg url ext) (.text content) ∧
    (Storage.save cfg fs url content ext (some [])).1
        = Storage.fsWrite fs (Storage.savePath cfg url ext) (.text content) ∧
    (∀ q, q ≠ Storage.savePath cfg url ext →
      Storage.fsLookup (Storage.save cfg fs url content ext none).1 q
        = Storage.fsLookup fs q) ∧
    (∀ d, d ≠ [] →
      (Storage.save cfg fs url content ext (some d)).1
        = Storage.fsWrite
            (Storage.fsWrite fs (Storage.savePath cfg url ext) (.text content))
            (Storage.metaPath cfg url ext)
            (.json (Storage.setKey d "source_url" (.s url)))) := by
  refine ⟨rfl, rfl, ?_, ?_⟩
  · intro q hq
    simp [Storage.save, fsLookup_fsWrite, hq]
  · intro d hd
    simp [Storage.save, hd]

/-- Witness for C10 at a concrete store, URL and metadata; the probed
path differs from the save path by length (the save path embeds a
32-character hash). -/
theorem C10_sidecar_only_for_nonempty_metadata_witness :
    Storage.fsLookup (Storage.save settings [] "https://e.com/a" "c" "html" none).1 ""
        = Storage.fsLookup [] "" ∧
    (Storage.save settings [] "https://e.com/a" "c" "md" (some [("depth", .n 0)])).1
        = Storage.fsWrite
            (Storage.fsWrite [] (Storage.savePath settings "https://e.com/a" "md") (.text "c"))
            (Storage.metaPath settings "https://e.com/a" "md")
            (.json (Storage.setKey [("depth", .n 0)] "source_url" (.s "https://e.com/a"))) := by
  have h := C10_sidecar_only_for_nonempty_metadata settings [] "https://e.com/a" "c" "html"
  have h2 := C10_sidecar_only_for_nonempty_metadata settings [] "https://e.com/a" "c" "md"
  have hne : ("" : String) ≠ Storage.savePath settings "https://e.com/a" "html" := by
    intro he
    have hlen := congrArg String.length he
    rw [Storage.savePath] at hlen
    simp [String.length_append, generate_filename_length] at hlen
    omega
  exact ⟨h.2.2.1 "" hne, h2.2.2.2 [("depth", .n 0)] (by decide)⟩

/-! ## Clean lemmas, C8 -/

/-- Decomposing tag `t` leaves no element tagged `t` anywhere. -/
theorem noTagB_decomposeTag_self (t : String) :
    ∀ f, noTagB t (Parser.decomposeTag t f) = true
  | [] => by simp [Parser.decomposeTag, noTagB]
  | .text s :: rest => by
    simp [Parser.decomposeTag, noTagB, noTagB_decomposeTag_self t rest]
  | .elem tag attrs cs :: rest => by
    by_cases h : tag = t
    · simp [Parser.decomposeTag, h, noTagB_decomposeTag_self t rest]
    · simp [Parser.decomposeTag, h, noTagB, noTagB_decomposeTag_self t cs,
        noTagB_decomposeTag_self t rest]

/-- Decomposing any tag preserves the absence of tag `t`. -/
theorem noTagB_decomposeTag (t u : String) :
    ∀ f, noTagB t f = true → noTagB t (Parser.decomposeTag u f) = true
  | [], _ => by simp [Parser.decomposeTag, noTagB]
  | .text s :: rest, h => by
    simp only [noTagB] at h
    simp [Parser.decomposeTag, noTagB, noTagB_decomposeTag t u rest h]
  | .elem tag attrs cs :: rest, h => by
    simp only [noTagB] at h
    split at h
    · exact absurd h (by simp)
    · next hne =>
      rw [Bool.and_eq_true] at h
      by_cases hu : tag = u
      · simp [Parser.decomposeTag, hu, noTagB_decomposeTag t u rest h.2]
      · simp [Parser.decomposeTag, hu, noTagB, hne,
          noTagB_decomposeTag t u cs h.1, noTagB_decomposeTag t u rest h.2]

/-- Attribute stripping does not change which tags occur. -/
theorem noTagB_stripAttrs (t : String) :
    ∀ f, noTagB t (Parser.stripAttrs f) = noTagB t f
  | [] => by simp [Parser.stripAttrs]
  | .text s :: rest => by
    simp [Parser.stripAttrs, noTagB, noTagB_stripAttrs t rest]
  | .elem tag attrs cs :: rest => by
    by_cases h : tag = t <;>
      simp [Parser.stripAttrs, noTagB, h, noTagB_stripAttrs t cs,
        noTagB_stripAttrs t rest]

/-- After all decompose passes of `ts`, the absence of tag `t` is
preserved. -/
theorem noTagB_decomposeAll_pres (t : String) :
    ∀ ts f, noTagB t f = true → noTagB t (Parser.decomposeAll ts f) = true := by
  intro ts
  induction ts with
  | nil => intro f h; exact h
  | cons u rest ih =>
    intro f h
    exact ih _ (noTagB_decomposeTag t u f h)

/-- After the decompose passes of `ts`, no tag of `ts` remains. -/
theorem noTagB_decomposeAll_mem (t : String) :
    ∀ ts f, t ∈ ts → noTagB t (Parser.decomposeAll ts f) = true := by
  intro ts
  induction ts with
  | nil => intro f h; cases h
  | cons u rest ih =>
    intro f h
    rcases List.mem_cons.mp h with h | h
    · subst h
      exact noTagB_decomposeAll_pres t rest _ (noTagB_decomposeTag_self t f)
    · exact ih _ h

/-- Stripped forests carry only allow-listed attributes. -/
theorem attrsAllowedB_stripAttrs :
    ∀ f, attrsAllowedB (Parser.stripAttrs f) = true
  | [] => by simp [Parser.stripAttrs, attrsAllowedB]
  | .text s :: rest => by
    simp [Parser.stripAttrs, attrsAllowedB, attrsAllowedB_stripAttrs rest]
  | .elem tag attrs cs :: rest => by
    simp only [Parser.stripAttrs, attrsAllowedB, Bool.and_eq_true]
    refine ⟨⟨?_, attrsAllowedB_stripAttrs cs⟩, attrsAllowedB_stripAttrs rest⟩
    rw [List.all_eq_true]
    intro p hp
    have := (List.mem_filter.mp hp).2
    simpa using this

/-- Attribute stripping preserves the text content. -/
theorem textContent_stripAttrs :
    ∀ f, Html.textContent (Parser.stripAttrs f) = Html.textContent f
  | [] => by simp [Parser.stripAttrs]
  | .text s :: rest => by
    simp [Parser.stripAttrs, Html.textContent, textContent_stripAttrs rest]
  | .elem tag attrs cs :: rest => by
    simp [Parser.stripAttrs, Html.textContent, textContent_stripAttrs cs,
      textContent_stripAttrs rest]

/-- Decomposing a tag that does not occur is the identity. -/
theorem decomposeTag_of_noTagB (t : String) :
    ∀ f, noTagB t f = true → Parser.decomposeTag t f = f
  | [], _ => by simp [Parser.decomposeTag]
  | .text s :: rest, h => by
    simp only [noTagB] at h
    simp [Parser.decomposeTag, decomposeTag_of_noTagB t rest h]
  | .elem tag attrs cs :: rest, h => by
    simp only [noTagB] at h
    split at h
    · exact absurd h (by simp)
    · next hne =>
      rw [Bool.and_eq_true] at h
      simp [Parser.decomposeTag, hne, decomposeTag_of_noTagB t cs h.1,
        decomposeTag_of_noTagB t rest h.2]

/-- Decompose passes over tags none of which occur are the identity. -/
theorem decomposeAll_of_noTagB :
    ∀ ts f, (∀ t ∈ ts, noTagB t f = true) → Parser.decomposeAll ts f = f := by
  intro ts
  induction ts with
  | nil => intro f _; rfl
  | cons u rest ih =>
    intro f h
    have hu := decomposeTag_of_noTagB u f (h u (List.mem_cons_self _ _))
    have : Parser.decomposeAll (u :: rest) f = Parser.decomposeAll rest f := by
      simp [Parser.decomposeAll, hu]
    rw [this]
    exact ih f (fun t ht => h t (List.mem_cons_of_mem _ ht))

/-- **C8**: `clean` (1) leaves no noise or boilerplate element, at any
nesting depth, in the cleaned body, (2) leaves only `src`, `href`,
`alt`, `title` attributes on the remaining elements, (3) changes no
text other than by the decompose passes themselves, (4) therefore
preserves all text of a document free of the removed tags (such as
text inside `main`), and (5) serializes exactly this cleaned forest
into `cleaned_content` for non-empty content. -/
theorem C8_clean_removes_elements_strips_attrs_keeps_text (data : Parser.ParsedData) :
    noRemovedTags (Parser.cleanForest data.content) = true ∧
    attrsAllowedB (Parser.cleanForest data.content) = true ∧
    Html.textContent (Parser.cleanForest data.content)
      = Html.textContent
          (Parser.decomposeAll Parser.BOILERPLATE_TAGS
            (Parser.decomposeAll Parser.NOISE_TAGS data.content)) ∧
    (noRemovedTags data.content = true →
      Html.textContent (Parser.cleanForest data.content)
        = Html.textContent data.content) ∧
    (Html.render data.content ≠ "" →
      (Parser.clean data).cleaned_content
        = Html.render (Parser.cleanForest data.content)) := by
  refine ⟨?_, ?_, ?_, ?_, ?_⟩
  · rw [noRemovedTags, List.all_eq_true]
    intro t ht
    rw [Parser.cleanForest, noTagB_stripAttrs]
    rcases List.mem_append.mp ht with h | h
    · exact noTagB_decomposeAll_pres t _ _ (noTagB_decomposeAll_mem t _ _ h)
    · exact noTagB_decomposeAll_mem t _ _ h
  · exact attrsAllowedB_stripAttrs _
  · exact textContent_stripAttrs _
  · intro h
    rw [noRemovedTags, List.all_eq_true] at h
    rw [Parser.cleanForest, textContent_stripAttrs, decomposeAll_of_noTagB, decomposeAll_of_noTagB]
    · intro t ht
      exact h t (List.mem_append.mpr (.inl ht))
    · intro t ht
      rw [decomposeAll_of_noTagB]
      · exact h t (List.mem_append.mpr (.inr ht))
      · intro u hu
        exact h u (List.mem_append.mpr (.inl hu))
  · intro h
    simp [Parser.clean, h]

/-- Witness for C8's conditional conjuncts at a concrete page:
non-empty content, and a removed-tag-free `main`-only document whose
text survives cleaning verbatim. -/
theorem C8_clean_witness :
    (Html.render C8doc ≠ "" →
      (Parser.clean ⟨"T", "", C8doc⟩).cleaned_content
        = Html.render (Parser.cleanForest C8doc)) ∧
    Html.render C8doc ≠ "" ∧
    (noRemovedTags [Html.elem "main" [] [Html.text "Main Title"]] = true →
      Html.textContent (Parser.cleanForest [Html.elem "main" [] [Html.text "Main Title"]])
        = Html.textContent [Html.elem "main" [] [Html.text "Main Title"]]) ∧
    noRemovedTags [Html.elem "main" [] [Html.text "Main Title"]] = true := by
  refine ⟨?_, ?_, ?_, ?_⟩
  · exact (C8_clean_removes_elements_strips_attrs_keeps_text ⟨"T", "", C8doc⟩).2.2.2.2
  · simp only [C8doc, Html.render, Html.renderNode, Html.renderAttrs,
      Html.escapeText, ne_eq]
    decide
  · exact (C8_clean_removes_elements_strips_attrs_keeps_text
      ⟨"T", "", [Html.elem "main" [] [Html.text "Main Title"]]⟩).2.2.2.1
  · simp [noRemovedTags, noTagB, Parser.NOISE_TAGS, Parser.BOILERPLATE_TAGS]

/-! ## C9 -/

/-- **C9** (counterexample): a non-empty document with no `body`
element on which `parse` nevertheless fails — its empty `title`
element has no `.string`, so `title.strip()` raises inside the `try`
and `parse` raises `ParsingException`.  The empty-input check is
therefore not the only failure path left uncovered by the body
fallback. -/
theorem C9_counterexample_empty_title_raises :
    Html.render C9doc ≠ "" ∧
    Html.findFirstTag "body" C9doc = none ∧
    Parser.parse C9doc
      = .error "Failed to parse HTML: NoneType object has no attribute strip" := by
  have hne : Html.render C9doc ≠ "" := by
    simp only [C9doc, Html.render, Html.renderNode, Html.renderAttrs,
      Html.escapeText, ne_eq]
    decide
  have h1 : Html.findFirstTag "title" C9doc = some (Html.elem "title" [] []) := by
    simp [Html.findFirstTag, C9doc, Html.findFirstElem]
  have h2 : Html.nodeString (Html.elem "title" [] []) = none := by
    simp [Html.nodeString]
  have h3 : Html.findFirstElem (fun tag attrs => Parser.isMetaDescription tag attrs) C9doc
      = none := by
    simp [C9doc, Html.findFirstElem, Parser.isMetaDescription, Html.attrLookup]
  have h4 : Html.findFirstTag "body" C9doc = none := by
    simp [C9doc, Html.findFirstTag, Html.findFirstElem]
  refine ⟨hne, h4, ?_⟩
  unfold Parser.parse
  rw [if_neg hne]
  simp only [h1, h2, h3, h4]

/-- **C9** (amended): for every non-empty document without a `body`
element, `parse` succeeds with the whole document as the raw content
body, provided the two remaining lookups cannot raise: the first
`title` element (if any) has a defined `.string`, and the first
meta-description element (if any) carries a `content` attribute. -/
theorem C9_amended_parse_succeeds_without_body (doc : List Html)
    (hne : Html.render doc ≠ "")
    (hnb : Html.findFirstTag "body" doc = none)
    (ht : ∀ t, Html.findFirstTag "title" doc = some t → Html.nodeString t ≠ none)
    (hm : ∀ tag attrs cs,
      Html.findFirstElem (fun tg ats => Parser.isMetaDescription tg ats) doc
        = some (.elem tag attrs cs) →
      Html.attrLookup attrs "content" ≠ none) :
    ∃ r, Parser.parse doc = .ok r ∧ r.content = doc := by
  rcases hM : Html.findFirstElem (fun tg ats => Parser.isMetaDescription tg ats) doc
    with _ | e
  · rcases hT : Html.findFirstTag "title" doc with _ | t
    · refine ⟨⟨pyStrip "No title", "", doc⟩, ?_, rfl⟩
      unfold Parser.parse
      rw [if_neg hne]
      simp [hM, hT, hnb]
    · obtain ⟨ts, hts⟩ := Option.ne_none_iff_exists'.mp (ht t hT)
      refine ⟨⟨pyStrip ts, "", doc⟩, ?_, rfl⟩
      unfold Parser.parse
      rw [if_neg hne]
      simp [hM, hT, hts, hnb]
  · cases e with
    | text s =>
      rcases hT : Html.findFirstTag "title" doc with _ | t
      · refine ⟨⟨pyStrip "No title", "", doc⟩, ?_, rfl⟩
        unfold Parser.parse
        rw [if_neg hne]
        simp [hM, hT, hnb]
      · obtain ⟨ts, hts⟩ := Option.ne_none_iff_exists'.mp (ht t hT)
        refine ⟨⟨pyStrip ts, "", doc⟩, ?_, rfl⟩
        unfold Parser.parse
        rw [if_neg hne]
        simp [hM, hT, hts, hnb]
    | elem tag attrs cs =>
      obtain ⟨v, hv⟩ := Option.ne_none_iff_exists'.mp (hm tag attrs cs hM)
      rcases hT : Html.findFirstTag "title" doc with _ | t
      · refine ⟨⟨pyStrip "No title", v, doc⟩, ?_, rfl⟩
        unfold Parser.parse
        rw [if_neg hne]
        simp [hM, hT, hv, hnb]
      · obtain ⟨ts, hts⟩ := Option.ne_none_iff_exists'.mp (ht t hT)
        refine ⟨⟨pyStrip ts, v, doc⟩, ?_, rfl⟩
        unfold Parser.parse
        rw [if_neg hne]
        simp [hM, hT, hts, hv, hnb]

/-- Witness for the amended C9 at a concrete body-less document. -/
theorem C9_amended_parse_succeeds_without_body_witness :
    ∃ r, Parser.parse C9docW = .ok r ∧ r.content = C9docW := by
  apply C9_amended_parse_succeeds_without_body C9docW
  · simp only [C9docW, Html.render, Html.renderNode, Html.renderAttrs,
      Html.escapeText, ne_eq]
    decide
  · simp [C9docW, Html.findFirstTag, Html.findFirstElem]
  · intro t h
    simp [C9docW, Html.findFirstTag, Html.findFirstElem] at h
  · intro tag attrs cs h
    simp [C9docW, Html.findFirstElem, Parser.isMetaDescription] at h

/-! ## Crawl-loop lemmas, C2, C6 -/

/-- What the pipeline does to the run state: it never touches
`visited` or `history`, it only appends its `enqueued` entries to the
frontier, and every enqueued entry was created at depth `depth + 1`,
only when `depth < max_depth`. -/
theorem pipeline_frame (env : Interactor.Env) (url : String) (depth max_depth : Nat)
    (base : String) (st : Interactor.CrawlState) (r : Interactor.PipelineResult)
    (hr : Interactor.process_url_pipeline env url depth max_depth base st = r) :
    r.state.visited = st.visited ∧
    r.state.history = st.history ∧
    r.state.to_visit = st.to_visit ++ r.enqueued ∧
    (∀ e ∈ r.enqueued, e.2 = depth + 1 ∧ depth < max_depth) := by
  simp only [Interactor.process_url_pipeline] at hr
  repeat' split at hr
  all_goals subst hr
  all_goals refine ⟨rfl, rfl, by simp, ?_⟩
  all_goals intro e he
  all_goals simp only [List.not_mem_nil, List.mem_map, List.mem_filter] at he
  · obtain ⟨l, _, rfl⟩ := he
    exact ⟨rfl, by assumption⟩

/-- At depth at least `max_depth`, link discovery is skipped and the
pipeline enqueues nothing. -/
theorem pipeline_no_spawn_at_max (env : Interactor.Env) (url : String)
    (depth max_depth : Nat) (base : String) (st : Interactor.CrawlState)
    (r : Interactor.PipelineResult)
    (hr : Interactor.process_url_pipeline env url depth max_depth base st = r)
    (hd : max_depth ≤ depth) : r.enqueued = [] := by
  simp only [Interactor.process_url_pipeline] at hr
  repeat' split at hr
  all_goals subst hr
  all_goals first
    | rfl
    | omega

/-- A batch run preserves `visited` and `history`, and every frontier
entry afterwards either was already pending or was enqueued by some
batch member below `max_depth` at its depth plus one. -/
theorem runBatch_inv (env : Interactor.Env) (max_depth : Nat) (base : String) :
    ∀ batch st,
      (Interactor.runBatch env max_depth base batch st).visited = st.visited ∧
      (Interactor.runBatch env max_depth base batch st).history = st.history ∧
      (∀ e ∈ (Interactor.runBatch env max_depth base batch st).to_visit,
        e ∈ st.to_visit ∨ ∃ b ∈ batch, e.2 = b.2 + 1 ∧ b.2 < max_depth) := by
  intro batch
  induction batch with
  | nil => exact fun st => ⟨rfl, rfl, fun e he => .inl he⟩
  | cons hd tl ih =>
    intro st
    have hp := pipeline_frame env hd.1 hd.2 max_depth base st _ rfl
    have hstep : Interactor.runBatch env max_depth base (hd :: tl) st
        = Interactor.runBatch env max_depth base tl
            (Interactor.process_url_pipeline env hd.1 hd.2 max_depth base st).state := rfl
    rw [hstep]
    obtain ⟨ih1, ih2, ih3⟩ :=
      ih (Interactor.process_url_pipeline env hd.1 hd.2 max_depth base st).state
    refine ⟨by rw [ih1, hp.1], by rw [ih2, hp.2.1], ?_⟩
    intro e he
    rcases ih3 e he with h | ⟨b, hb, h1, h2⟩
    · rw [hp.2.2.1] at h
      rcases List.mem_append.mp h with h | h
      · exact .inl h
      · have hq := hp.2.2.2 e h
        exact .inr ⟨hd, List.mem_cons_self _ _, hq.1, hq.2⟩
    · exact .inr ⟨b, List.mem_cons_of_mem _ hb, h1, h2⟩

/-- The drain loop: starting from a duplicate-free batch of visited
URLs, the final batch is duplicate-free, its URLs are in the final
visited set, the visited set only grows, every batch URL was either
already batched or unvisited at drain time, and batch and rest entries
come from the incoming batch or frontier. -/
theorem drainBatchAux_spec (limit : Nat) :
    ∀ tv visited batch,
      (batch.map Prod.fst).Nodup →
      (∀ u ∈ batch.map Prod.fst, u ∈ visited) →
      ((Interactor.drainBatchAux limit tv visited batch).1.map Prod.fst).Nodup ∧
      (∀ u ∈ (Interactor.drainBatchAux limit tv visited batch).1.map Prod.fst,
        u ∈ (Interactor.drainBatchAux limit tv visited batch).2.1) ∧
      (∀ u ∈ visited, u ∈ (Interactor.drainBatchAux limit tv visited batch).2.1) ∧
      (∀ u ∈ (Interactor.drainBatchAux limit tv visited batch).1.map Prod.fst,
        u ∈ batch.map Prod.fst ∨ u ∉ visited) ∧
      (∀ e ∈ (Interactor.drainBatchAux limit tv visited batch).1, e ∈ batch ∨ e ∈ tv) ∧
      (∀ e ∈ (Interactor.drainBatchAux limit tv visited batch).2.2, e ∈ tv) := by
  intro tv
  induction tv with
  | nil =>
    intro visited batch h1 h2
    simp only [Interactor.drainBatchAux]
    exact ⟨h1, h2, fun u hu => hu, fun u hu => .inl hu,
      fun e he => .inl he, fun e he => by cases he⟩
  | cons hd tl ih =>
    intro visited batch h1 h2
    obtain ⟨url, depth⟩ := hd
    by_cases hlim : batch.length < limit
    · by_cases hv : url ∈ visited
      · have heq : Interactor.drainBatchAux limit ((url, depth) :: tl) visited batch
            = Interactor.drainBatchAux limit tl visited batch := by
          simp [Interactor.drainBatchAux, hlim, hv]
        rw [heq]
        obtain ⟨i1, i2, i3, i4, i5, i6⟩ := ih visited batch h1 h2
        exact ⟨i1, i2, i3, i4,
          fun e he => (i5 e he).imp id (List.mem_cons_of_mem _),
          fun e he => List.mem_cons_of_mem _ (i6 e he)⟩
      · have heq : Interactor.drainBatchAux limit ((url, depth) :: tl) visited batch
            = Interactor.drainBatchAux limit tl (url :: visited)
                (batch ++ [(url, depth)]) := by
          simp [Interactor.drainBatchAux, hlim, hv]
        rw [heq]
        have hnotin : url ∉ batch.map Prod.fst := fun hmem => hv (h2 url hmem)
        have h1' : ((batch ++ [(url, depth)]).map Prod.fst).Nodup := by
          rw [List.map_append, List.nodup_append]
          refine ⟨h1, List.nodup_singleton url, ?_⟩
          rw [List.disjoint_left]
          intro a ha hb
          simp only [List.map_cons, List.map_nil, List.mem_singleton] at hb
          subst hb
          exact hnotin ha
        have h2' : ∀ u ∈ (batch ++ [(url, depth)]).map Prod.fst, u ∈ url :: visited := by
          intro u hu
          rw [List.map_append, List.mem_append] at hu
          rcases hu with hu | hu
          · exact List.mem_cons_of_mem _ (h2 u hu)
          · simp at hu
            simp [hu]
        obtain ⟨i1, i2, i3, i4, i5, i6⟩ := ih (url :: visited) (batch ++ [(url, depth)]) h1' h2'
        refine ⟨i1, i2, fun u hu => i3 u (List.mem_cons_of_mem _ hu), ?_, ?_, ?_⟩
        · intro u hu
          rcases i4 u hu with h | h
          · rw [List.map_append, List.mem_append] at h
            rcases h with h | h
            · exact .inl h
            · simp at h
              subst h
              exact .inr hv
          · exact .inr (fun hin => h (List.mem_cons_of_mem _ hin))
        · intro e he
          rcases i5 e he with h | h
          · rcases List.mem_append.mp h with h | h
            · exact .inl h
            · simp at h
              subst h
              exact .inr (List.mem_cons_self _ _)
          · exact .inr (List.mem_cons_of_mem _ h)
        · intro e he
          exact List.mem_cons_of_mem _ (i6 e he)
    · have heq : Interactor.drainBatchAux limit ((url, depth) :: tl) visited batch
          = (batch, visited, (url, depth) :: tl) := by
        simp [Interactor.drainBatchAux, hlim]
      rw [heq]
      exact ⟨h1, h2, fun u hu => hu, fun u hu => .inl hu,
        fun e he => .inl he, fun e he => he⟩

/-- One outer-loop iteration preserves the run invariant. -/
theorem crawlStep_inv (env : Interactor.Env) (md limit : Nat) (base : String)
    (st st' : Interactor.CrawlState)
    (h : Interactor.crawlStep env md limit base st = some st')
    (hI : CrawlInv md st) : CrawlInv md st' := by
  obtain ⟨hI1, hI2, hI3, hI4⟩ := hI
  cases htv : st.to_visit with
  | nil =>
    simp only [Interactor.crawlStep, htv] at h
    cases h
  | cons hd tl =>
    simp only [Interactor.crawlStep, htv] at h
    split at h
    · cases h
    · rw [Option.some_inj] at h
      subst h
      obtain ⟨d1, d2, d3, d4, d5, d6⟩ :=
        drainBatchAux_spec limit (hd :: tl) st.visited [] (by simp) (by simp)
      obtain ⟨r1, r2, r3⟩ := runBatch_inv env md base
        (Interactor.drainBatchAux limit (hd :: tl) st.visited []).1
        ⟨(Interactor.drainBatchAux limit (hd :: tl) st.visited []).2.2,
         (Interactor.drainBatchAux limit (hd :: tl) st.visited []).2.1,
         st.stats, st.history ++ (Interactor.drainBatchAux limit (hd :: tl) st.visited []).1⟩
      rw [htv] at hI3
      refine ⟨?_, ?_, ?_, ?_⟩
      · rw [r2]
        simp only [List.map_append]
        rw [List.nodup_append]
        refine ⟨hI1, d1, ?_⟩
        rw [List.disjoint_left]
        intro u hu hu'
        rcases d4 u hu' with h | h
        · cases h
        · exact h (hI2 u hu)
      · intro u hu
        rw [r2] at hu
        rw [r1]
        simp only [List.map_append, List.mem_append] at hu
        rcases hu with hu | hu
        · exact d3 u (hI2 u hu)
        · exact d2 u hu
      · intro e he
        rcases r3 e he with hm | ⟨b, _, hb1, hb2⟩
        · rcases d6 e hm with h6
          exact hI3 e h6
        · omega
      · intro e he
        rw [r2] at he
        rcases List.mem_append.mp he with h | h
        · exact hI4 e h
        · rcases d5 e h with h5 | h5
          · cases h5
          · exact hI3 e h5

/-- The crawl loop preserves the run invariant for any fuel. -/
theorem crawlLoop_inv (env : Interactor.Env) (md limit : Nat) (base : String) :
    ∀ fuel st, CrawlInv md st →
      CrawlInv md (Interactor.crawlLoop env md limit base fuel st)
  | 0, st, h => h
  | fuel + 1, st, h => by
    unfold Interactor.crawlLoop
    cases hs : Interactor.crawlStep env md limit base st with
    | none => exact h
    | some st1 =>
      exact crawlLoop_inv env md limit base fuel st1
        (crawlStep_inv env md limit base st st1 hs h)

/-- The initial run state satisfies the invariant. -/
theorem initState_inv (md : Nat) (start_url : String) :
    CrawlInv md (Interactor.initState start_url) := by
  refine ⟨by simp [Interactor.initState], by simp [Interactor.initState], ?_,
    by simp [Interactor.initState]⟩
  intro e he
  simp only [Interactor.initState, List.mem_singleton] at he
  subst he
  exact Nat.zero_le _

/-- **C2**: a URL enters `visited` only at drain time — the pipeline
(which discovers links) never modifies `visited` — and the drain
history of any run from a seed is duplicate-free: no URL is processed
twice, even when the frontier holds duplicate pending entries; every
drained URL is in the final visited set. -/
theorem C2_visited_at_drain_no_double_processing (env : Interactor.Env)
    (max_depth limit fuel : Nat) (base start_url : String) :
    (∀ url depth st,
      (Interactor.process_url_pipeline env url depth max_depth base st).state.visited
        = st.visited) ∧
    ((Interactor.crawlLoop env max_depth limit base fuel
        (Interactor.initState start_url)).history.map Prod.fst).Nodup ∧
    (∀ u ∈ (Interactor.crawlLoop env max_depth limit base fuel
        (Interactor.initState start_url)).history.map Prod.fst,
      u ∈ (Interactor.crawlLoop env max_depth limit base fuel
        (Interactor.initState start_url)).visited) := by
  have hinv := crawlLoop_inv env max_depth limit base fuel
    (Interactor.initState start_url) (initState_inv max_depth start_url)
  exact ⟨fun url depth st => (pipeline_frame env url depth max_depth base st _ rfl).1,
    hinv.1, hinv.2.1⟩

/-- Witness for C2 at a concrete environment and run. -/
theorem C2_visited_at_drain_no_double_processing_witness :
    (Interactor.process_url_pipeline envUp "https://e.com" 0 3 "e.com" st0).state.visited
      = st0.visited ∧
    ((Interactor.crawlLoop envUp 3 5 "e.com" 4
        (Interactor.initState "https://e.com")).history.map Prod.fst).Nodup := by
  have h := C2_visited_at_drain_no_double_processing envUp 3 5 4 "e.com" "https://e.com"
  exact ⟨h.1 "https://e.com" 0 st0, h.2.1⟩

/-- **C6**: every entry the pipeline enqueues while processing a page
at depth `d0` has depth `d0 + 1` and requires `d0 < max_depth`; at
depth `max_depth` and beyond nothing is enqueued (the page is still
processed); and along any run from a seed, every frontier and history
entry stays at depth at most `max_depth` — in particular never above
`max_depth + 1`. -/
theorem C6_depth_monotonicity (env : Interactor.Env)
    (max_depth limit fuel : Nat) (base start_url : String) :
    (∀ url depth st,
      ∀ e ∈ (Interactor.process_url_pipeline env url depth max_depth base st).enqueued,
        e.2 = depth + 1 ∧ depth < max_depth) ∧
    (∀ url depth st, max_depth ≤ depth →
      (Interactor.process_url_pipeline env url depth max_depth base st).enqueued = []) ∧
    (∀ e ∈ (Interactor.crawlLoop env max_depth limit base fuel
        (Interactor.initState start_url)).to_visit, e.2 ≤ max_depth) ∧
    (∀ e ∈ (Interactor.crawlLoop env max_depth limit base fuel
        (Interactor.initState start_url)).history, e.2 ≤ max_depth) := by
  have hinv := crawlLoop_inv env max_depth limit base fuel
    (Interactor.initState start_url) (initState_inv max_depth start_url)
  exact ⟨fun url depth st => (pipeline_frame env url depth max_depth base st _ rfl).2.2.2,
    fun url depth st hd => pipeline_no_spawn_at_max env url depth max_depth base st _ rfl hd,
    hinv.2.2.1, hinv.2.2.2⟩

/-- Witness for C6: at a concrete environment, a page at depth 0
enqueues exactly depth-1 entries, and a page at the maximum depth
enqueues nothing. -/
theorem C6_depth_monotonicity_witness :
    (("https://e.com" ++ "/a", 1) :
        String × Nat).2 = 0 + 1 ∧ 0 < 3 ∧
    (Interactor.process_url_pipeline envUp "https://e.com" 3 3 "e.com" st0).enqueued = [] := by
  have h := C6_depth_monotonicity envUp 3 5 4 "e.com" "https://e.com"
  have h1 := h.1 "https://e.com" 0 st0 ("https://e.com" ++ "/a", 1) (by decide)
  exact ⟨h1.1, h1.2, h.2.1 "https://e.com" 3 st0 (by decide)⟩

/-! ## C5 -/

/-- **C5** (counterexample): `extract_links` does not deduplicate —
two identical anchors yield the same link twice — and `rstrip("/")`
removes every trailing slash, not just one (`/a//` resolves to
`https://example.com/a//` and is returned as `https://example.com/a`). -/
theorem C5_counterexample_no_dedup :
    Parser.extract_links C5doc "https://example.com" "example.com"
      = ["https://example.com/a", "https://example.com/a"] ∧
    ¬ (Parser.extract_links C5doc "https://example.com" "example.com").Nodup := by
  have hA : Parser.findAllAnchorHrefs C5doc = ["/a//", "/a//"] := by
    simp [C5doc, Parser.findAllAnchorHrefs, Html.attrLookup, List.find?]
  have hres : Parser.extract_links C5doc "https://example.com" "example.com"
      = ["https://example.com/a", "https://example.com/a"] := by
    unfold Parser.extract_links
    rw [hA]
    rfl
  refine ⟨hres, ?_⟩
  rw [hres]
  decide

/-! ## List lemmas for the link-normalization proof -/

/-- `takeWhile` over an append: all of `u` when `u` passes, else stop
inside `u`. -/
theorem takeWhile_append_split (p : Char → Bool) (u v : List Char) :
    (u ++ v).takeWhile p
      = if u.all p = true then u ++ v.takeWhile p else u.takeWhile p := by
  induction u with
  | nil => simp
  | cons a u' ih =>
    by_cases ha : p a
    · simp only [List.cons_append, List.takeWhile_cons, ha, List.all_cons]
      rw [ih]
      by_cases hall : u'.all p = true <;> simp [hall, ha]
    · simp [List.takeWhile_cons, ha]

/-- A list passing `p` throughout is its own `takeWhile`. -/
theorem takeWhile_of_all (p : Char → Bool) (l : List Char) (h : l.all p = true) :
    l.takeWhile p = l := by
  induction l with
  | nil => rfl
  | cons a l' ih =>
    rw [List.all_cons, Bool.and_eq_true] at h
    simp [List.takeWhile_cons, h.1, ih h.2]

/-- `takeWhile p` after `takeWhile q` is `takeWhile p` when `p` is
stronger than `q`. -/
theorem takeWhile_takeWhile_of_imp (p q : Char → Bool)
    (hpq : ∀ c, p c = true → q c = true) (l : List Char) :
    (l.takeWhile q).takeWhile p = l.takeWhile p := by
  induction l with
  | nil => rfl
  | cons a l' ih =>
    by_cases hq : q a
    · simp only [List.takeWhile_cons, hq]
      by_cases hp : p a <;> simp [hp, ih]
    · have hp : p a = false := by
        cases hpa : p a
        · rfl
        · exact absurd (hpq a hpa) (by simp [hq])
      simp [List.takeWhile_cons, hq, hp]

/-- Dropping while `p` runs past an element failing `p` exactly up to
it. -/
theorem dropWhile_append_cons_false (p : Char → Bool) (x : Char)
    (hx : p x = false) (u v : List Char) :
    (u ++ x :: v).dropWhile p = u.dropWhile p ++ x :: v := by
  induction u with
  | nil => simp [List.dropWhile_cons, hx]
  | cons a u' ih =>
    by_cases ha : p a <;> simp [List.dropWhile_cons, ha, ih]

/-- `dropWhile` over an append does not reach `v` when it stops inside
`u`. -/
theorem dropWhile_append_of_ne_nil (p : Char → Bool) (u v : List Char)
    (h : u.dropWhile p ≠ []) :
    (u ++ v).dropWhile p = u.dropWhile p ++ v := by
  induction u with
  | nil => exact absurd rfl h
  | cons a u' ih =>
    by_cases ha : p a
    · rw [List.dropWhile_cons_of_pos ha] at h
      simp [List.dropWhile_cons, ha, ih h]
    · simp [List.dropWhile_cons, ha]

/-- Members of a `takeWhile` satisfy the predicate. -/
theorem mem_takeWhile_sat (p : Char → Bool) (l : List Char) :
    ∀ a ∈ l.takeWhile p, p a = true := by
  induction l with
  | nil => intro a ha; cases ha
  | cons c l' ih =>
    intro a ha
    by_cases hc : p c
    · rw [List.takeWhile_cons_of_pos hc] at ha
      rcases List.mem_cons.mp ha with h | h
      · subst h; exact hc
      · exact ih a h
    · rw [List.takeWhile_cons_of_neg (by simpa using hc)] at ha
      cases ha

/-- `dropWhile` of an all-`p` list is empty. -/
theorem dropWhile_of_all (p : Char → Bool) (l : List Char)
    (h : ∀ a ∈ l, p a = true) : l.dropWhile p = [] := by
  induction l with
  | nil => rfl
  | cons c l' ih =>
    rw [List.dropWhile_cons_of_pos (h c (List.mem_cons_self _ _))]
    exact ih (fun a ha => h a (List.mem_cons_of_mem _ ha))

/-- `dropWhile` keeps an element failing `p`. -/
theorem dropWhile_ne_nil_of_exists (p : Char → Bool) (l : List Char)
    (h : ∃ y ∈ l, p y = false) : l.dropWhile p ≠ [] := by
  induction l with
  | nil => obtain ⟨y, hy, _⟩ := h; cases hy
  | cons c l' ih =>
    by_cases hc : p c
    · rw [List.dropWhile_cons_of_pos hc]
      obtain ⟨y, hy, hyp⟩ := h
      rcases List.mem_cons.mp hy with rfl | hy'
      · exact absurd hc (by simp [hyp])
      · exact ih ⟨y, hy', hyp⟩
    · rw [List.dropWhile_cons_of_neg (by simpa using hc)]
      simp

/-! ## rstrip lemmas -/

/-- `rstripL` splits the list into its value and an all-slash tail. -/
theorem rstripL_split (m : List Char) :
    ∃ t, Parser.rstripL m ++ t = m ∧ ∀ y ∈ t, Parser.isSlashChar y = true := by
  refine ⟨(m.reverse.takeWhile Parser.isSlashChar).reverse, ?_, ?_⟩
  · rw [Parser.rstripL, ← List.reverse_append, List.takeWhile_append_dropWhile,
      List.reverse_reverse]
  · intro y hy
    rw [List.mem_reverse] at hy
    exact mem_takeWhile_sat _ _ y hy

/-- `rstripL` of an all-slash list is empty. -/
theorem rstripL_of_all_slash (m : List Char)
    (h : ∀ y ∈ m, Parser.isSlashChar y = true) : Parser.rstripL m = [] := by
  rw [Parser.rstripL, dropWhile_of_all]
  · rfl
  · intro a ha
    exact h a (List.mem_reverse.mp ha)

/-- `rstripL` commutes with a cons whose tail contains a non-slash. -/
theorem rstripL_cons_of_exists (c : Char) (t : List Char)
    (h : ∃ y ∈ t, Parser.isSlashChar y = false) :
    Parser.rstripL (c :: t) = c :: Parser.rstripL t := by
  rw [Parser.rstripL, Parser.rstripL, List.reverse_cons,
    dropWhile_append_of_ne_nil _ _ _ (dropWhile_ne_nil_of_exists _ _ (by
      obtain ⟨y, hy, hyp⟩ := h
      exact ⟨y, List.mem_reverse.mpr hy, hyp⟩)),
    List.reverse_append]
  rfl

/-- `rstripL` commutes with an append ending in a non-slash element. -/
theorem rstripL_append_cons (a : List Char) (x : Char) (b : List Char)
    (hx : Parser.isSlashChar x = false) :
    Parser.rstripL (a ++ x :: b) = a ++ x :: Parser.rstripL b := by
  rw [Parser.rstripL, List.reverse_append, List.reverse_cons, List.append_assoc,
    List.singleton_append, dropWhile_append_cons_false _ x hx,
    List.reverse_append, List.reverse_cons, Parser.rstripL]
  simp

/-- Stopping at a slash-rejecting predicate ignores the stripped
all-slash tail. -/
theorem takeWhile_rstripL (p : Char → Bool) (hp : p '/' = false) (m : List Char) :
    (Parser.rstripL m).takeWhile p = m.takeWhile p := by
  obtain ⟨t, ht, hall⟩ := rstripL_split m
  conv_rhs => rw [← ht]
  rw [takeWhile_append_split]
  have htw : t.takeWhile p = [] := by
    cases t with
    | nil => rfl
    | cons y t' =>
      have hy := hall y (List.mem_cons_self _ _)
      have : y = '/' := by
        simpa [Parser.isSlashChar] using hy
      subst this
      rw [List.takeWhile_cons_of_neg (by simp [hp])]
  by_cases hallp : (Parser.rstripL m).all p = true
  · rw [if_pos hallp, htw, List.append_nil, takeWhile_of_all _ _ hallp]
  · rw [if_neg hallp]

/-! ## urlsplit structure lemmas -/

/-- A successful `breakAtChar` decomposes the list at the first `c`. -/
theorem breakAtChar_eq_some (c : Char) :
    ∀ l pre rest, Urllib.breakAtChar c l = (pre, some rest) →
      l = pre ++ c :: rest ∧ c ∉ pre := by
  intro l
  induction l with
  | nil => intro pre rest h; simp [Urllib.breakAtChar] at h
  | cons x xs ih =>
    intro pre rest h
    by_cases hx : x = c
    · subst hx
      rw [Urllib.breakAtChar, if_pos rfl] at h
      obtain ⟨h1, h2⟩ := Prod.mk.injEq .. ▸ h
      rw [Option.some_inj] at h2
      subst h1
      subst h2
      simp
    · rw [Urllib.breakAtChar, if_neg hx] at h
      cases hbk : Urllib.breakAtChar c xs with
      | mk p1 p2 =>
        rw [hbk] at h
        simp only at h
        obtain ⟨h1, h2⟩ := Prod.mk.injEq .. ▸ h
        subst h1
        rcases p2 with _ | r2
        · cases h2
        · rw [h2] at hbk
          obtain ⟨ih1, ih2⟩ := ih p1 rest hbk
          subst ih1
          refine ⟨by simp, ?_⟩
          intro hmem
          rcases List.mem_cons.mp hmem with h | h
          · exact hx h.symm
          · exact ih2 h

/-- `breakAtChar` recomposes: with no `c` in the head part, it splits
exactly there. -/
theorem breakAtChar_append (c : Char) :
    ∀ pre rest, c ∉ pre →
      Urllib.breakAtChar c (pre ++ c :: rest) = (pre, some rest) := by
  intro pre
  induction pre with
  | nil => intro rest _; simp [Urllib.breakAtChar]
  | cons a pre' ih =>
    intro rest h
    have ha : ¬ a = c := fun he => h (he ▸ List.mem_cons_self _ _)
    rw [List.cons_append, Urllib.breakAtChar, if_neg ha,
      ih rest (fun hm => h (List.mem_cons_of_mem _ hm))]

/-- A successful scheme split decomposes the URL as
`scheme-chars ++ ':' ++ rest`. -/
theorem splitScheme_eq_some (l sch rest : List Char)
    (h : Urllib.splitScheme l = some (sch, rest)) :
    ∃ c0 cs, l = (c0 :: cs) ++ ':' :: rest ∧
      sch = (c0 :: cs).map Char.toLower ∧
      c0.isAlpha = true ∧ cs.all Urllib.isSchemeChar = true ∧
      ':' ∉ c0 :: cs := by
  unfold Urllib.splitScheme at h
  cases hbk : Urllib.breakAtChar ':' l with
  | mk p1 p2 =>
    rw [hbk] at h
    cases p2 with
    | none => cases h
    | some r2 =>
      cases p1 with
      | nil => cases h
      | cons c0 cs =>
        dsimp only at h
        by_cases hcond : (c0.isAlpha && cs.all Urllib.isSchemeChar) = true
        · rw [if_pos hcond] at h
          rw [Option.some_inj, Prod.mk.injEq] at h
          obtain ⟨h1, h2⟩ := h
          subst h2
          obtain ⟨hb1, hb2⟩ := breakAtChar_eq_some ':' l (c0 :: cs) _ hbk
          rw [Bool.and_eq_true] at hcond
          exact ⟨c0, cs, hb1, h1.symm, hcond.1, hcond.2, hb2⟩
        · rw [if_neg hcond] at h
          cases h

/-- ASCII letters are not `#`, `/` or `:`. -/
theorem isAlpha_not_special (c : Char) (h : c.isAlpha = true) :
    c ≠ '#' ∧ c ≠ '/' ∧ c ≠ ':' := by
  refine ⟨?_, ?_, ?_⟩ <;> (rintro rfl; revert h; decide)

/-- Scheme characters are not `#`, `/` or `:`. -/
theorem isSchemeChar_not_special (c : Char) (h : Urllib.isSchemeChar c = true) :
    c ≠ '#' ∧ c ≠ '/' ∧ c ≠ ':' := by
  refine ⟨?_, ?_, ?_⟩ <;> (rintro rfl; revert h; decide)

/-- `splitNetloc` on a remainder not starting with `//` finds no
netloc. -/
theorem splitNetloc_no_slashes (rest : List Char)
    (h : ∀ r, rest ≠ '/' :: '/' :: r) :
    Urllib.splitNetloc rest = ([], rest) := by
  unfold Urllib.splitNetloc
  split
  · next x => exact absurd rfl (h x)
  · rfl

/-- Fragment stripping followed by trailing-slash stripping does not
change the netloc a split finds. -/
theorem splitNetloc_strip (rest : List Char) :
    (Urllib.splitNetloc (Parser.rstripL (Parser.stripHashL rest))).1
      = (Urllib.splitNetloc rest).1 := by
  by_cases hAB : ∃ r, rest = '/' :: '/' :: r
  · obtain ⟨r, rfl⟩ := hAB
    have htw : Parser.stripHashL ('/' :: '/' :: r)
        = '/' :: '/' :: Parser.stripHashL r := by
      rw [Parser.stripHashL, List.takeWhile_cons_of_pos (by decide),
        List.takeWhile_cons_of_pos (by decide)]
      rfl
    rw [htw]
    by_cases hall : ∀ y ∈ Parser.stripHashL r, Parser.isSlashChar y = true
    · have hz : Parser.rstripL ('/' :: '/' :: Parser.stripHashL r) = [] := by
        apply rstripL_of_all_slash
        intro y hy
        rcases List.mem_cons.mp hy with rfl | hy1
        · decide
        · rcases List.mem_cons.mp hy1 with rfl | hy2
          · decide
          · exact hall y hy2
      rw [hz]
      show ([] : List Char) = r.takeWhile (fun c => !Urllib.netlocStop c)
      cases r with
      | nil => rfl
      | cons c r' =>
        by_cases hc : c = '#'
        · subst hc; rfl
        · have hcs : c = '/' := by
            have hmem : c ∈ Parser.stripHashL (c :: r') := by
              rw [Parser.stripHashL,
                List.takeWhile_cons_of_pos (by simp [Parser.isHashChar, hc])]
              exact List.mem_cons_self _ _
            simpa [Parser.isSlashChar] using hall c hmem
          subst hcs
          rfl
    · push_neg at hall
      obtain ⟨y, hy, hyne⟩ := hall
      have hyne' : Parser.isSlashChar y = false := by
        cases hq : Parser.isSlashChar y
        · rfl
        · exact absurd hq hyne
      have h1 : Parser.rstripL ('/' :: '/' :: Parser.stripHashL r)
          = '/' :: '/' :: Parser.rstripL (Parser.stripHashL r) := by
        rw [rstripL_cons_of_exists _ _ ⟨y, List.mem_cons_of_mem _ hy, hyne'⟩,
          rstripL_cons_of_exists _ _ ⟨y, hy, hyne'⟩]
      rw [h1]
      show (Parser.rstripL (Parser.stripHashL r)).takeWhile (fun c => !Urllib.netlocStop c)
          = r.takeWhile (fun c => !Urllib.netlocStop c)
      rw [takeWhile_rstripL _ (by decide)]
      show (r.takeWhile (fun c => !Parser.isHashChar c)).takeWhile (fun c => !Urllib.netlocStop c)
          = r.takeWhile (fun c => !Urllib.netlocStop c)
      refine takeWhile_takeWhile_of_imp _ _ (fun c hc => ?_) r
      have : c ≠ '#' := by
        intro hcc
        subst hcc
        simp [Urllib.netlocStop] at hc
      simp [Parser.isHashChar, this]
  · push_neg at hAB
    rw [splitNetloc_no_slashes rest hAB, splitNetloc_no_slashes]
    intro r' hr'
    obtain ⟨t2, ht2, _⟩ := rstripL_split (Parser.stripHashL rest)
    have ht1 : Parser.stripHashL rest
        ++ rest.dropWhile (fun c => !Parser.isHashChar c) = rest := by
      rw [Parser.stripHashL]
      exact List.takeWhile_append_dropWhile _ _
    rw [hr'] at ht2
    have hrest : rest
        = ('/' :: '/' :: r' ++ t2) ++ rest.dropWhile (fun c => !Parser.isHashChar c) := by
      rw [ht2, ht1]
    refine hAB (r' ++ (t2 ++ rest.dropWhile (fun c => !Parser.isHashChar c))) ?_
    conv_lhs => rw [hrest]
    simp

/-- The key normalization fact behind `extract_links`: on a URL that
parses with a scheme, removing the fragment and then all trailing
slashes changes neither the scheme nor the netloc. -/
theorem urlsplitL_strip_preserve (l : List Char)
    (hs : (Urllib.urlsplitL l []).scheme ≠ "") :
    (Urllib.urlsplitL (Parser.rstripL (Parser.stripHashL l)) []).scheme
        = (Urllib.urlsplitL l []).scheme ∧
    (Urllib.urlsplitL (Parser.rstripL (Parser.stripHashL l)) []).netloc
        = (Urllib.urlsplitL l []).netloc := by
  cases hsp : Urllib.splitScheme l with
  | none =>
    exfalso
    apply hs
    simp [Urllib.urlsplitL, hsp]
  | some p =>
    obtain ⟨sch, rest⟩ := p
    obtain ⟨c0, cs, hl, hsch, halpha, hschars, hcolon⟩ :=
      splitScheme_eq_some l sch rest hsp
    have hprops : ∀ x ∈ c0 :: cs, x ≠ '#' ∧ x ≠ '/' ∧ x ≠ ':' := by
      intro x hx
      rcases List.mem_cons.mp hx with rfl | hx'
      · exact isAlpha_not_special x halpha
      · refine isSchemeChar_not_special x ?_
        rw [List.all_eq_true] at hschars
        exact hschars x hx'
    have e1 : Parser.stripHashL l = (c0 :: cs) ++ ':' :: Parser.stripHashL rest := by
      rw [hl, Parser.stripHashL, takeWhile_append_split, if_pos ?hall]
      · rw [List.takeWhile_cons_of_pos (by decide)]
        rfl
      case hall =>
        rw [List.all_eq_true]
        intro x hx
        simp [Parser.isHashChar, (hprops x hx).1]
    have e2 : Parser.rstripL (Parser.stripHashL l)
        = (c0 :: cs) ++ ':' :: Parser.rstripL (Parser.stripHashL rest) := by
      rw [e1, rstripL_append_cons _ _ _ (by decide)]
    have hsp2 : Urllib.splitScheme (Parser.rstripL (Parser.stripHashL l))
        = some (sch, Parser.rstripL (Parser.stripHashL rest)) := by
      rw [e2]
      unfold Urllib.splitScheme
      rw [breakAtChar_append ':' (c0 :: cs) _ hcolon]
      dsimp only
      rw [if_pos (by rw [Bool.and_eq_true]; exact ⟨halpha, hschars⟩), hsch]
    constructor
    · simp [Urllib.urlsplitL, hsp, hsp2]
    · simp only [Urllib.urlsplitL, hsp, hsp2]
      rw [splitNetloc_strip rest]

/-- `urlparse` only refines the path into params: scheme and netloc
agree with `urlsplit`. -/
theorem urlparse_projections (s d : String) :
    (Urllib.urlparse s d).netloc = (Urllib.urlsplit s d).netloc ∧
    (Urllib.urlparse s d).scheme = (Urllib.urlsplit s d).scheme := by
  constructor <;>
    (unfold Urllib.urlparse
     dsimp only
     split
     · rfl
     · rfl)

/-- A link `processHref` emits parses back to exactly the base domain
and an http(s) scheme, the trailing-slash and fragment stripping
notwithstanding. -/
theorem processHref_preserves_host (cur base href link : String)
    (h : Parser.processHref cur base href = some link) :
    (Urllib.urlparse link "").netloc = base ∧
    ((Urllib.urlparse link "").scheme = "http" ∨
      (Urllib.urlparse link "").scheme = "https") := by
  unfold Parser.processHref at h
  dsimp only at h
  split at h
  · next hcond =>
    rw [Option.some_inj] at h
    subst h
    obtain ⟨hnet, hsch⟩ := hcond
    rw [(urlparse_projections _ "").1, (urlparse_projections _ "").2] at *
    have hs_ne : (Urllib.urlsplitL (Urllib.urljoin cur href).toList []).scheme ≠ "" := by
      show (Urllib.urlsplit (Urllib.urljoin cur href) "").scheme ≠ ""
      rcases hsch with h | h <;> (rw [h]; decide)
    have hkey := urlsplitL_strip_preserve (Urllib.urljoin cur href).toList hs_ne
    have hlist : (Parser.rstripSlash
          (Parser.splitHashHead (Urllib.urljoin cur href))).toList
        = Parser.rstripL (Parser.stripHashL (Urllib.urljoin cur href).toList) := rfl
    constructor
    · show (Urllib.urlsplitL _ []).netloc = base
      rw [hlist, hkey.2]
      exact hnet
    · show (Urllib.urlsplitL _ []).scheme = "http" ∨ (Urllib.urlsplitL _ []).scheme = "https"
      rw [hlist, hkey.1]
      exact hsch
  · cases h

/-- The appending loop of `extract_links` is a `filterMap`. -/
theorem foldl_append_filterMap (f : String → Option String) :
    ∀ (l acc : List String),
      l.foldl (fun acc href =>
        match f href with
        | some x => acc ++ [x]
        | none => acc) acc = acc ++ l.filterMap f := by
  intro l
  induction l with
  | nil => intro acc; simp
  | cons a l' ih =>
    intro acc
    cases hf : f a <;> simp [List.foldl_cons, hf, List.filterMap_cons, ih]

/-- **C5** (amended): `extract_links` returns, in document order and
without deduplication, each anchor href resolved against the current
URL, with the fragment and all trailing slashes removed, kept only
when the resolved URL's host equals the base domain exactly and its
scheme is http or https; every returned URL still has host equal to
the base domain and scheme http or https. -/
theorem C5_amended_extract_links (doc : List Html) (cur base : String) :
    Parser.extract_links doc cur base
      = (Parser.findAllAnchorHrefs doc).filterMap (Parser.processHref cur base) ∧
    ∀ link ∈ Parser.extract_links doc cur base,
      (Urllib.urlparse link "").netloc = base ∧
      ((Urllib.urlparse link "").scheme = "http" ∨
        (Urllib.urlparse link "").scheme = "https") := by
  have heq : Parser.extract_links doc cur base
      = (Parser.findAllAnchorHrefs doc).filterMap (Parser.processHref cur base) := by
    unfold Parser.extract_links
    rw [foldl_append_filterMap]
    rfl
  refine ⟨heq, ?_⟩
  intro link hlink
  rw [heq] at hlink
  obtain ⟨href, _, hh⟩ := List.mem_filterMap.mp hlink
  exact processHref_preserves_host cur base href link hh

/-- Witness for the amended C5 at the concrete duplicate-anchor page. -/
theorem C5_amended_extract_links_witness :
    (Urllib.urlparse "https://example.com/a" "").netloc = "example.com" ∧
    ((Urllib.urlparse "https://example.com/a" "").scheme = "http" ∨
      (Urllib.urlparse "https://example.com/a" "").scheme = "https") := by
  have hA : Parser.findAllAnchorHrefs C5doc = ["/a//", "/a//"] := by
    simp [C5doc, Parser.findAllAnchorHrefs, Html.attrLookup, List.find?]
  have hmem : "https://example.com/a" ∈ Parser.extract_links C5doc "https://example.com" "example.com" := by
    have : Parser.extract_links C5doc "https://example.com" "example.com"
        = ["https://example.com/a", "https://example.com/a"] := by
      unfold Parser.extract_links
      rw [hA]
      rfl
    rw [this]
    exact List.mem_cons_self _ _
  exact (C5_amended_extract_links C5doc "https://example.com" "example.com").2
    "https://example.com/a" hmem

end WebScraper
